import Mathlib

/-!
Verification of the share-availability layer: 2D Reed–Solomon extended data
squares (EDS), namespaced Merkle trees (NMT) over rows and columns, the
content-addressed node store, and the shrex/nd client error handling.

Pure functions are shallowly embedded as Lean functions; the content-addressed
store is a set of symbolic nodes; the Go error interface of the shrex/nd client
is embedded as an explicit datatype with classification flags.
-/

set_option maxHeartbeats 1000000

namespace Nhatcele

/-- A share: a fixed-size byte blob whose first `NamespaceSize` bytes name a
namespace. We model it as a pair (namespace id, payload identity); the
namespace order is the lexicographic byte order, modelled as the order on
`Nat`. -/
abbrev Share := Nat × Nat

/-! ## EDS engine

Modelled from the spec: `Extend`, `ExtractODS`, `ExtractEDS` of the EDS engine
(`rsmt2d.ComputeExtendedDataSquare` and the `ExtractODS`/`ExtractEDS`
helpers are exercised by the tests but their code is not part of the sources).
The spec: `Extend(shares[k²]) → EDS` arranges shares row-major into the
top-left k×k quadrant and applies a systematic Reed–Solomon code along the
rows and then the columns; the codec is an external parameter (§6), so the
erasure code is embedded as a function `enc` producing the parity symbols of a
row from its `k` data symbols. -/

/-- Split a flat list into consecutive chunks of `k` elements (row-major
rows of a square). -/
def chunks (k : Nat) : List α → List (List α)
  | [] => []
  | x :: xs =>
    if _h : k = 0 then []
    else (x :: xs).take k :: chunks k ((x :: xs).drop k)
termination_by l => l.length
decreasing_by
  simp only [List.length_drop, List.length_cons]
  omega

/-- A systematic row extension: the data symbols followed by the parity
symbols produced by the codec. -/
def extendRow (enc : List α → List α) (row : List α) : List α :=
  row ++ enc row

/-- Column-wise systematic extension: the given rows followed by the parity
rows obtained by encoding every column. -/
def extendCols (enc : List α → List α) (rows : List (List α)) : List (List α) :=
  rows ++ (rows.transpose.map enc).transpose

/-- `Extend`: place the `k²` shares row-major into the original quadrant,
extend each of the `k` original rows with row parity, then extend every
column with column parity, producing the `2k × 2k` extended square
(as a list of rows). -/
def Extend (enc : List α → List α) (k : Nat) (shares : List α) : List (List α) :=
  extendCols enc ((chunks k shares).map (extendRow enc))

/-- `ExtractODS`: the original top-left `k × k` quadrant of the extended
square, as a flat row-major sequence. -/
def ExtractODS (k : Nat) (eds : List (List α)) : List α :=
  ((eds.take k).map (·.take k)).flatten

/-- `ExtractEDS`: the full extended square as a flat row-major sequence. -/
def ExtractEDS (eds : List (List α)) : List α :=
  eds.flatten

/-! ## Namespaced Merkle trees

Modelled from the spec: the NMT is a complete binary tree over a power-of-two
leaf count; every node carries a `(min_ns, max_ns, hash)` triple, with
`min_ns = max_ns = s.namespace` at a leaf and `min/max` of the children at an
inner node (§3, §4.2). Hashing is collision-free for distinct tree contents,
so a node's digest is represented symbolically by the subtree itself; the
content-addressed store then maps each digest to its node, and tree descent
by digest is descent in the subtree. -/

/-- A namespaced Merkle tree node (symbolic digest). -/
inductive NTree where
  | leaf (s : Share)
  | node (l r : NTree)
deriving DecidableEq

/-- Number of leaves under a node. -/
def NTree.size : NTree → Nat
  | .leaf _ => 1
  | .node l r => l.size + r.size

/-- The leaves under a node, in order. -/
def NTree.leavesOf : NTree → List Share
  | .leaf s => [s]
  | .node l r => l.leavesOf ++ r.leavesOf

/-- `min_ns` of a node: the leaf namespace at a leaf, the minimum of the
children at an inner node. -/
def NTree.minNs : NTree → Nat
  | .leaf s => s.1
  | .node l r => min l.minNs r.minNs

/-- `max_ns` of a node. -/
def NTree.maxNs : NTree → Nat
  | .leaf s => s.1
  | .node l r => max l.maxNs r.maxNs

/-- Build the row (or column) NMT over a list of leaf shares: split the
leaves in half and recurse, as the complete binary tree over a power-of-two
leaf count. -/
def buildTree (l : List Share) : NTree :=
  if h : 2 ≤ l.length then
    .node (buildTree (l.take (l.length / 2))) (buildTree (l.drop (l.length / 2)))
  else .leaf (l.headD (0, 0))
termination_by l.length
decreasing_by
  · simp only [List.length_take]
    omega
  · simp only [List.length_drop]
    omega

/-- Modelled from the spec: `GetShare(rowRoot, pos, total)` fetches one leaf
by position given a row root (its code lives outside the given sources; the
spec describes it as tree descent by index: halve `total` at each level, go
left when the index lies in the first half, right with the index shifted
otherwise, and at the leaf strip the namespace prefix, which in this model is
the projection to the stored share). -/
def getLeaf : NTree → Nat → Nat → Share
  | .leaf s, _, _ => s
  | .node l r, i, total =>
    if i < total / 2 then getLeaf l i (total / 2)
    else getLeaf r (i - total / 2) (total / 2)

/-- `GetShare`: descend from the row root to leaf `i` of `total` and return
the share stored there. -/
def GetShare (t : NTree) (i total : Nat) : Share :=
  getLeaf t i total

/-! ### Structural facts about NMT nodes -/

/-- The namespaces of the leaves under a node, in order. -/
def leavesNs (t : NTree) : List Nat :=
  t.leavesOf.map Prod.fst

/-- The namespace range check of the descent rule: `nid < min_ns` or
`max_ns < nid`. -/
def nsOutside (nid : Nat) (t : NTree) : Bool :=
  decide (nid < t.minNs) || decide (t.maxNs < nid)

/-- All nodes of a tree (the node itself, then the nodes of both
children). -/
def nodesOf : NTree → List NTree
  | .leaf s => [.leaf s]
  | .node l r => .node l r :: (nodesOf l ++ nodesOf r)

/-! ## EDS repair

Modelled from the spec: `Repair(row_roots, col_roots)` of the EDS engine
(`rsmt2d`'s repair is exercised by the tests but its code is not part of the
sources). The spec (§4.4): repair iteratively solves rows and columns with
the RS codec — a row/column of the `2k`-wide square can be solved iff it has
at most `k` unknowns — verifies every reconstructed line against the
supplied root, alternating axes until a fixed point, and fails cleanly
otherwise. Verification against the original roots forces every
successfully solved line to equal the original line, so solving a line is
embedded as restoring its original values; a pass that makes no progress
while unknowns remain is `FailedToSolve`. -/

/-- A partially known `n × n` square: `none` marks a deleted share. -/
abbrev Square (n : Nat) (σ : Type) := Fin n → Fin n → Option σ

/-- `FailedToSolve`: repair ran to a fixed point without completing. -/
inductive RepairErr where
  | FailedToSolve
deriving DecidableEq

/-- Number of unknown cells in row `i`. -/
def rowMissing {n : Nat} {σ : Type} [DecidableEq σ]
    (sq : Square n σ) (i : Fin n) : Nat :=
  (Finset.univ.filter (fun j => sq i j = none)).card

/-- Number of unknown cells in column `j`. -/
def colMissing {n : Nat} {σ : Type} [DecidableEq σ]
    (sq : Square n σ) (j : Fin n) : Nat :=
  (Finset.univ.filter (fun i => sq i j = none)).card

/-- Total number of unknown cells. -/
def missingCount {n : Nat} {σ : Type} [DecidableEq σ]
    (sq : Square n σ) : Nat :=
  ∑ i, rowMissing sq i

/-- One row phase: every incomplete row with at most `k` unknowns is solved
(reconstructed to the original values, as enforced by root verification). -/
def solveRows {n : Nat} {σ : Type} [DecidableEq σ] (k : Nat)
    (orig : Fin n → Fin n → σ) (sq : Square n σ) : Square n σ :=
  fun i j =>
    if 0 < rowMissing sq i ∧ rowMissing sq i ≤ k then some (orig i j)
    else sq i j

/-- One column phase. -/
def solveCols {n : Nat} {σ : Type} [DecidableEq σ] (k : Nat)
    (orig : Fin n → Fin n → σ) (sq : Square n σ) : Square n σ :=
  fun i j =>
    if 0 < colMissing sq j ∧ colMissing sq j ≤ k then some (orig i j)
    else sq i j

/-- One pass of the crossword solver: rows, then columns. -/
def repairPass {n : Nat} {σ : Type} [DecidableEq σ] (k : Nat)
    (orig : Fin n → Fin n → σ) (sq : Square n σ) : Square n σ :=
  solveCols k orig (solveRows k orig sq)

/-- All cells known. -/
def IsComplete {n : Nat} {σ : Type} (sq : Square n σ) : Prop :=
  ∀ i j, sq i j ≠ none

instance {n : Nat} {σ : Type} [DecidableEq σ] (sq : Square n σ) :
    Decidable (IsComplete sq) := by
  unfold IsComplete
  infer_instance

/-- Iterate passes until the square is complete or a pass makes no
progress. -/
def repairLoop {n : Nat} {σ : Type} [DecidableEq σ] (k : Nat)
    (orig : Fin n → Fin n → σ) :
    Nat → Square n σ → Except RepairErr (Square n σ)
  | 0, _ => .error .FailedToSolve
  | fuel + 1, sq =>
    if IsComplete sq then .ok sq
    else if repairPass k orig sq = sq then .error .FailedToSolve
    else repairLoop k orig fuel (repairPass k orig sq)

/-- `Repair`: solve the crossword with enough fuel for every possible
progress step. -/
def Repair {σ : Type} [DecidableEq σ] (k : Nat)
    (orig : Fin (2 * k) → Fin (2 * k) → σ) (damaged : Square (2 * k) σ) :
    Except RepairErr (Square (2 * k) σ) :=
  repairLoop k orig (2 * k * (2 * k) + 1) damaged

/-- The deletion pattern witnessing recoverability at `(k+1)²` deletions:
the first `k/2 + 1` rows entirely, plus the first cell of the next row. -/
def blockPattern {σ : Type} (k : Nat)
    (orig : Fin (2 * k) → Fin (2 * k) → σ) : Square (2 * k) σ :=
  fun i j =>
    if (i : Nat) ≤ k / 2 ∨ ((i : Nat) = k / 2 + 1 ∧ (j : Nat) = 0) then none
    else some (orig i j)

/-! ## shrex/nd client

Embedded from `src/share/p2p/shrexnd/client.go`. The Go error interface is
represented by a datatype carrying the classification flags the client
inspects (`errors.Is(·, context.DeadlineExceeded)`, `errors.Is(·,
context.Canceled)`, `errors.As(·, &net.Error)` with `Timeout()`, and
`errors.Is(·, io.EOF)`); network and peer behaviour is an explicit
environment (stream-open, write and read outcomes plus the decoded
response). -/

/-- A Go error value as the client observes it. `tag` keeps distinct
underlying failures distinct. -/
structure GoErr where
  isDeadline : Bool
  isCanceled : Bool
  netTimeout : Bool
  isEOF : Bool
  tag : Nat
deriving DecidableEq

/-- Errors produced by the client: the sentinel errors `p2p.ErrNotFound`,
`share.ErrNamespaceNotFound`, `p2p.ErrInvalidResponse` and
`context.DeadlineExceeded`, plus the `fmt.Errorf`-wrapped stream errors. -/
inductive CErr where
  | errNotFound
  | errNamespaceNotFound
  | errInvalidResponse
  | ctxDeadlineExceeded
  | streamOpenFailed (e : GoErr)
  | writeFailed (e : GoErr)
  | readFailed (e : GoErr)
  | respNotOK (e : CErr)
deriving DecidableEq

/-- `errors.Is(err, context.DeadlineExceeded) || errors.Is(err,
context.Canceled)`: `fmt.Errorf("...: %w", ·)` wrapping preserves the
unwrap chain, the sentinel errors carry no context error. -/
def CErr.isDeadlineOrCanceled : CErr → Bool
  | .ctxDeadlineExceeded => true
  | .streamOpenFailed e => e.isDeadline || e.isCanceled
  | .writeFailed e => e.isDeadline || e.isCanceled
  | .readFailed e => e.isDeadline || e.isCanceled
  | .respNotOK e => e.isDeadlineOrCanceled
  | _ => false

/-- `errors.As(err, &ne) && ne.Timeout()`: `context.DeadlineExceeded`
itself implements `net.Error` with `Timeout() == true`. -/
def CErr.isNetTimeout : CErr → Bool
  | .ctxDeadlineExceeded => true
  | .streamOpenFailed e => e.netTimeout
  | .writeFailed e => e.netTimeout
  | .readFailed e => e.netTimeout
  | .respNotOK e => e.isNetTimeout
  | _ => false

/-- Statuses recorded by `metrics.ObserveRequests`. -/
inductive ObserveStatus where
  | StatusSuccess
  | StatusNotFound
  | StatusRateLimited
  | StatusTimeout
deriving DecidableEq

/-- The wire proof of a row: `{ start, end, nodes }`. -/
structure PbProof where
  start : Int
  stop : Int
  nodes : List Nat
deriving DecidableEq

/-- A row of the response: `{ shares[], proof? }`. -/
structure PbRow where
  shares : List Nat
  proof : Option PbProof
deriving DecidableEq

/-- A typed row handed to the caller; the proof keeps the positions and
nodes of the wire proof (rebuilt with `ipld.NMTIgnoreMaxNamespace`). -/
structure NamespacedRow where
  shares : List Nat
  proof : Option PbProof
deriving DecidableEq

/-- `share.NamespacedShares`. -/
abbrev NamespacedShares := List NamespacedRow

/-- `convertToNamespacedShares`: convert proto rows to typed rows; the
error of the fallible Go signature is always `nil`. -/
def convertToNamespacedShares (rows : List PbRow) :
    NamespacedShares × Option CErr :=
  (rows.map (fun r => ⟨r.shares, r.proof⟩), none)

/-- `statusToErr`: map a response status code (proto enum: INVALID = 0,
OK = 1, NOT_FOUND = 2, INTERNAL = 3, NAMESPACE_NOT_FOUND = 4) to the error
returned and the metric recorded; INVALID and INTERNAL reach the default
case through `fallthrough`. -/
def statusToErr (code : Int) : Option CErr × List ObserveStatus :=
  if code = 1 then (none, [.StatusSuccess])
  else if code = 2 then (some .errNotFound, [.StatusNotFound])
  else if code = 4 then (some .errNamespaceNotFound, [])
  else (some .errInvalidResponse, [])

/-- The observable behaviour of the peer and transport during one request:
outcome of `host.NewStream`, `serde.Write`, `serde.Read`, and the decoded
response on a successful read. -/
structure Env where
  openErr : Option GoErr
  writeErr : Option GoErr
  readErr : Option GoErr
  respStatus : Int
  respRows : List PbRow
deriving DecidableEq

/-- `doRequest`: open the stream, write the request, read the response, map
the status and convert the rows. The result pairs the Go return values
`(share.NamespacedShares, error)` with the metrics recorded along the way.
A read failing with `io.EOF` means the server closed the stream while
overloaded: the client records `StatusRateLimited` and returns
`p2p.ErrNotFound`. -/
def doRequest (env : Env) :
    (Option NamespacedShares × Option CErr) × List ObserveStatus :=
  match env.openErr with
  | some e => ((none, some (.streamOpenFailed e)), [])
  | none =>
    match env.writeErr with
    | some e => ((none, some (.writeFailed e)), [])
    | none =>
      match env.readErr with
      | some e =>
        if e.isEOF then ((none, some .errNotFound), [.StatusRateLimited])
        else ((none, some (.readFailed e)), [])
      | none =>
        match statusToErr env.respStatus with
        | (some err, ms) => ((none, some (.respNotOK err)), ms)
        | (none, ms) =>
          match convertToNamespacedShares env.respRows with
          | (shares, none) => ((some shares, none), ms)
          | (_, some e) => ((none, some (.respNotOK e)), ms)

/-- `RequestND`: run `doRequest` and post-process the error.
`ctxDeadline` is `ctx.Deadline()` (`none` when the context carries no
deadline; the code ignores the `ok` flag, so an absent deadline reads as
the zero time), `now` is `time.Now()` at the check. -/
def RequestND (env : Env) (ctxDeadline : Option Nat) (now : Nat) :
    (Option NamespacedShares × Option CErr) × List ObserveStatus :=
  match doRequest env with
  | ((shares, none), ms) => ((shares, none), ms)
  | ((_, some err), ms) =>
    if err.isDeadlineOrCanceled then ((none, some err), ms ++ [.StatusTimeout])
    else if err.isNetTimeout && decide (ctxDeadline.getD 0 < now) then
      ((none, some .ctxDeadlineExceeded), ms ++ [.StatusTimeout])
    else ((none, some err), ms)

/-- An environment whose read fails with a pure network timeout (not an
unwrapped context error, not EOF). -/
def netTimeoutEnv : Env :=
  ⟨none, none, some ⟨false, false, true, false, 7⟩, 1, []⟩

/-! ## Namespace traversal over an incomplete block store

Modelled from the spec: `CollectLeavesByNamespace` and the `NamespaceData`
leaf buffer live outside the given sources (only their tests are in src).
Per §4.5, each node is fetched from the store by its digest before the
descent rule is applied; if a required node is missing, traversal
propagates the retrieval error but preserves any leaves already collected,
in-order, with a hole at the missing index. -/

/-- Collect the leaves matching `nid`, over a store where `avail` says
whether the block of a digest is still retrievable. The result is the
position-indexed leaf buffer (`none` at positions not collected) and
whether a retrieval error occurred: a missing node covers its positions
with holes and raises the error; a pruned out-of-range branch covers its
positions with holes silently; a matched leaf lands at its position. -/
def collectWithMissing (avail : NTree → Bool) (nid : Nat) :
    NTree → List (Option Share) × Bool
  | .leaf s =>
    if avail (.leaf s) = false then ([none], true)
    else if s.1 = nid then ([some s], false)
    else ([none], false)
  | .node l r =>
    if avail (.node l r) = false then
      (List.replicate (NTree.node l r).size none, true)
    else if nsOutside nid (.node l r) = true then
      (List.replicate (NTree.node l r).size none, false)
    else
      ((collectWithMissing avail nid l).1 ++ (collectWithMissing avail nid r).1,
        (collectWithMissing avail nid l).2 || (collectWithMissing avail nid r).2)

/-- `SubtreeAt t p d`: `d` is a node of `t` whose leaves occupy positions
`[p, p + d.size)` of `t`'s leaf row. -/
inductive SubtreeAt : NTree → Nat → NTree → Prop where
  | here (t : NTree) : SubtreeAt t 0 t
  | left {l r d : NTree} {p : Nat} :
      SubtreeAt l p d → SubtreeAt (.node l r) p d
  | right {l r d : NTree} {p : Nat} :
      SubtreeAt r p d → SubtreeAt (.node l r) (l.size + p) d

/-! ## Share DAG put and the batch size

Modelled from the spec: the Share DAG put (§4.6) builds all `2w` row and
column NMTs of an EDS of extended width `w` and writes every resulting node
to the content-addressed block store in one batch. The store is keyed by
the CID of a node's namespaced hash (§4.3, §3), so identical node contents
share one key: the key set is the set of distinct nodes across all trees.
`BatchSize` itself also lives outside the given sources and is modelled
from the spec's stated closed form. -/

/-- The NMT over row `i` of the `w × w` extended square. -/
def rowTree (w : Nat) (square : Fin w → Fin w → Share) (i : Fin w) : NTree :=
  buildTree ((List.finRange w).map (fun j => square i j))

/-- The NMT over column `j` of the `w × w` extended square. -/
def colTree (w : Nat) (square : Fin w → Fin w → Share) (j : Fin w) : NTree :=
  buildTree ((List.finRange w).map (fun i => square i j))

/-- The key set of the block store after the batch write: the distinct
nodes of all `2w` trees. -/
def edsStoreKeys (w : Nat) (square : Fin w → Fin w → Share) : Finset NTree :=
  (Finset.univ.biUnion (fun i => (nodesOf (rowTree w square i)).toFinset))
    ∪ (Finset.univ.biUnion (fun j => (nodesOf (colTree w square j)).toFinset))

/-- Modelled from the spec: `BatchSize(extended_width) = 2·width² +
2·width` (§4.6). -/
def BatchSize (w : Nat) : Nat :=
  2 * w * w + 2 * w

/-- A concrete 8×8 extended square with pairwise-distinct shares. -/
def sq8 : Fin 8 → Fin 8 → Share :=
  fun i j => (0, (i : Nat) * 8 + (j : Nat))

/-- A concrete 4×4 extended square with pairwise-distinct shares. -/
def sq4 : Fin 4 → Fin 4 → Share :=
  fun i j => (0, (i : Nat) * 4 + (j : Nat))

/-- A concrete row of four leaves sharing namespace 5. -/
def exRow : NTree :=
  .node (.node (.leaf (5, 1)) (.leaf (5, 2))) (.node (.leaf (5, 3)) (.leaf (5, 4)))

/-! ## Namespace traversal, absence proofs and their verification

Modelled from the spec: `CollectLeavesByNamespace` with proofs and
`nmt.Proof.VerifyNamespace` live outside the given sources (only their
tests are in src). Per §4.5, the descent prunes namespace-disjoint
branches, contributing their digests as proof siblings; the assembled
proof covers `[start, end)` with the minimal sibling set needed to
recompute the root together with the returned leaves; per §3/§4.5,
verification reconstructs the row root from the nodes plus the supplied
leaves and checks equality, and an absence proof (empty leaf set) is
additionally checked to bracket where the queried namespace would sort in
the row. -/

/-- A namespace proof: `(start, end, nodes[])`. -/
structure NsProof where
  start : Nat
  stop : Nat
  nodes : List NTree
deriving DecidableEq

/-- `NamespaceOutsideRange`: the query namespace lies outside the row
root's `[min, max]` range. -/
inductive CollectErr where
  | NamespaceOutsideRange
deriving DecidableEq

/-- Descent below an in-range row root: an out-of-range node terminates
its branch, contributing its digest as a proof sibling; an in-range inner
node recurses into both children; a leaf is recorded when its namespace
matches and contributes its digest as a proof node otherwise. Returns the
matched leaves and the proof nodes, both in leaf order. -/
def collectAux (nid : Nat) : NTree → List Share × List NTree
  | .leaf s =>
    if s.1 = nid then ([s], []) else ([], [.leaf s])
  | .node l r =>
    if nsOutside nid (.node l r) = true then ([], [.node l r])
    else
      ((collectAux nid l).1 ++ (collectAux nid r).1,
        (collectAux nid l).2 ++ (collectAux nid r).2)

/-- The start of the covered range: the number of leaves of the row whose
namespace sorts strictly below `nid`. -/
def nsRangeStart (nid : Nat) (t : NTree) : Nat :=
  (leavesNs t).countP (fun x => decide (x < nid))

/-- The end of the covered range: one past the last leaf whose namespace
sorts at or below `nid`. -/
def nsRangeStop (nid : Nat) (t : NTree) : Nat :=
  (leavesNs t).countP (fun x => decide (x ≤ nid))

/-- `CollectLeavesByNamespace` at a row root: report
`NamespaceOutsideRange` when `nid` lies outside the root's range;
otherwise return the matched leaves and the assembled proof. -/
def CollectLeavesByNamespace (nid : Nat) (t : NTree) :
    Except CollectErr (List Share × NsProof) :=
  if nsOutside nid t = true then .error .NamespaceOutsideRange
  else .ok ((collectAux nid t).1,
    ⟨nsRangeStart nid t, nsRangeStop nid t, (collectAux nid t).2⟩)

/-- Consume the next proof node: it must equal the digest of the subtree
being recomputed. -/
def popNode (t : NTree) (ls : List Share) :
    List NTree → Option (List Share × List NTree)
  | [] => none
  | d :: rest => if d = t then some (ls, rest) else none

/-- Recompute the subtree covering leaf positions `[lo, lo + t.size)` from
the streams of supplied leaves (covering `[s, e)`) and proof nodes,
returning the unconsumed streams: a subtree positionally disjoint from
`[s, e)` must be the next proof node; inside the range the supplied leaves
are consumed in order. -/
def reconstruct (s e : Nat) :
    Nat → NTree → List Share → List NTree →
      Option (List Share × List NTree)
  | lo, .leaf sh, ls, ds =>
    if e ≤ lo ∨ lo + (NTree.leaf sh).size ≤ s then popNode (.leaf sh) ls ds
    else
      match ls with
      | [] => none
      | x :: xs => if x = sh then some (xs, ds) else none
  | lo, .node l r, ls, ds =>
    if e ≤ lo ∨ lo + (NTree.node l r).size ≤ s then popNode (.node l r) ls ds
    else
      match reconstruct s e lo l ls ds with
      | none => none
      | some st => reconstruct s e (lo + l.size) r st.1 st.2

/-- The absence bracketing check: every proof node fully left of position
`s` carries `max_ns` below the namespace and every node at or right of `s`
carries `min_ns` above it, so `[s, s)` brackets where the namespace would
sort in the row. -/
def bracketOk (nid s : Nat) : Nat → List NTree → Bool
  | _, [] => true
  | pos, d :: ds =>
    (if pos + d.size ≤ s then decide (d.maxNs < nid)
     else decide (nid < d.minNs))
      && bracketOk nid s (pos + d.size) ds

/-- `VerifyNamespace`: reconstruct the row root from the proof nodes plus
the supplied leaves and compare with the root; with an empty leaf set the
proof is an absence proof, whose covered range must be empty and bracket
where the namespace would sort. -/
def VerifyNamespace (nid : Nat) (leaves : List Share) (p : NsProof)
    (root : NTree) : Bool :=
  decide (reconstruct p.start p.stop 0 root leaves p.nodes = some ([], []))
    && (if leaves.isEmpty then
          decide (p.start = p.stop) && bracketOk nid p.start 0 p.nodes
        else true)

/-- An NMT row holds its leaves in namespace order. -/
def NsSorted (t : NTree) : Prop :=
  (leavesNs t).Pairwise (· ≤ ·)

instance (t : NTree) : Decidable (NsSorted t) := by
  unfold NsSorted
  infer_instance

/-- Two concrete sorted rows: namespace 2 falls inside the range `[1, 3]`
of the first row only, and matches no leaf. -/
def exRow1 : NTree := .node (.leaf (1, 21)) (.leaf (3, 22))

/-- The second concrete row, with range `[5, 6]`. -/
def exRow2 : NTree := .node (.leaf (5, 23)) (.leaf (6, 24))

/-! ## Properties -/

theorem chunks_flatten (k : Nat) (hk : 0 < k) :
    ∀ l : List α, (chunks k l).flatten = l := by
  intro l
  induction l using chunks.induct k with
  | case1 => simp [chunks]
  | case2 x xs h => omega
  | case3 x xs h ih =>
    rw [chunks]
    simp only [dif_neg h, List.flatten_cons, ih, List.take_append_drop]

theorem chunks_length_of_dvd (k : Nat) (hk : 0 < k) :
    ∀ l : List α, k ∣ l.length → (chunks k l).length = l.length / k := by
  intro l
  induction l using chunks.induct k with
  | case1 => intro _; simp [chunks]
  | case2 x xs h => omega
  | case3 x xs h ih =>
    intro hdvd
    rw [chunks]
    simp only [dif_neg h, List.length_cons]
    have hdvd2 : k ∣ ((x :: xs).drop k).length := by
      simp only [List.length_drop]
      exact Nat.dvd_sub' hdvd dvd_rfl
    rw [ih hdvd2]
    simp only [List.length_drop]
    rcases hdvd with ⟨c, hc⟩
    simp only [List.length_cons] at hc
    cases c with
    | zero => simp at hc
    | succ n =>
      have hlen2 : (x :: xs).length = k * n + k := by
        simp [hc, Nat.mul_succ]
      rw [hlen2, Nat.add_sub_cancel, Nat.mul_div_cancel_left _ hk, hc,
        Nat.mul_div_cancel_left _ hk]

theorem chunks_mem_length (k : Nat) :
    ∀ l : List α, k ∣ l.length → ∀ c ∈ chunks k l, c.length = k := by
  intro l
  induction l using chunks.induct k with
  | case1 => intro _ c hc; simp [chunks] at hc
  | case2 x xs h => intro _ c hc; rw [chunks] at hc; simp [dif_pos h] at hc
  | case3 x xs h ih =>
    intro hdvd c hc
    have hlen : k ≤ (x :: xs).length :=
      Nat.le_of_dvd (by simp) hdvd
    have hdvd2 : k ∣ ((x :: xs).drop k).length := by
      simp only [List.length_drop]
      exact Nat.dvd_sub' hdvd dvd_rfl
    rw [chunks] at hc
    simp only [dif_neg h, List.mem_cons] at hc
    rcases hc with hc | hc
    · subst hc
      simp only [List.length_take]
      omega
    · exact ih hdvd2 c hc

/-- **C1** (round-trip of the EDS engine): for every `k ∈ {2,4,8,16,32}` and
every sequence of `k²` original shares, extracting the original data square
from the extended square returns the input:
`ExtractODS (Extend shares) = shares`. -/
theorem extractODS_extend_roundtrip {α : Type} (k : Nat)
    (hk : k ∈ [2, 4, 8, 16, 32]) (enc : List α → List α)
    (shares : List α) (hlen : shares.length = k * k) :
    ExtractODS k (Extend enc k shares) = shares := by
  have hkpos : 0 < k := by
    simp only [List.mem_cons, List.not_mem_nil, or_false] at hk
    rcases hk with h | h | h | h | h <;> omega
  have hdvd : k ∣ shares.length := ⟨k, hlen⟩
  have hchunklen : (chunks k shares).length = k := by
    rw [chunks_length_of_dvd k hkpos shares hdvd, hlen, Nat.mul_div_cancel_left _ hkpos]
  unfold Extend ExtractODS extendCols
  have htake : ((chunks k shares).map (extendRow enc) ++
      (((chunks k shares).map (extendRow enc)).transpose.map enc).transpose).take k
      = (chunks k shares).map (extendRow enc) := by
    rw [List.take_append_of_le_length (by simp [hchunklen])]
    rw [List.take_of_length_le (by simp [hchunklen])]
  rw [htake, List.map_map]
  have hrows : ((chunks k shares).map (fun c => (extendRow enc c).take k))
      = chunks k shares := by
    conv_rhs => rw [show chunks k shares = (chunks k shares).map id from
      (List.map_id _).symm]
    apply List.map_congr_left
    intro c hc
    have hlc : c.length = k := chunks_mem_length k shares hdvd c hc
    unfold extendRow
    rw [List.take_append_of_le_length (by omega), List.take_of_length_le (by omega)]
    rfl
  have : (fun x => (x.take k : List α)) ∘ extendRow enc
      = fun c => (extendRow enc c).take k := rfl
  rw [this, hrows, chunks_flatten k hkpos]

/-- Witness for C1 at `k = 2` with four concrete shares and the trivial
repetition codec. -/
theorem extractODS_extend_roundtrip_witness :
    ExtractODS 2 (Extend (fun l => l) 2 [10, 11, 12, 13]) = [10, 11, 12, 13] :=
  extractODS_extend_roundtrip 2 (by decide) (fun l => l) [10, 11, 12, 13] (by decide)

theorem leavesOf_buildTree :
    ∀ l : List Share, 1 ≤ l.length → (buildTree l).leavesOf = l := by
  intro l
  induction l using buildTree.induct with
  | case1 l h ih1 ih2 =>
    intro _
    rw [buildTree, dif_pos h]
    simp only [NTree.leavesOf]
    rw [ih1 (by simp only [List.length_take]; omega),
      ih2 (by simp only [List.length_drop]; omega), List.take_append_drop]
  | case2 l h =>
    intro h1
    have : l.length = 1 := by omega
    rcases List.length_eq_one.mp this with ⟨a, ha⟩
    subst ha
    rw [buildTree]
    simp [NTree.leavesOf]

theorem getLeaf_buildTree (m : Nat) :
    ∀ (l : List Share) (i : Nat) (hl : l.length = 2 ^ m) (hi : i < 2 ^ m),
      getLeaf (buildTree l) i (2 ^ m) = l.get ⟨i, by omega⟩ := by
  induction m with
  | zero =>
    intro l i hl hi
    simp only [pow_zero] at hl hi
    rcases List.length_eq_one.mp hl with ⟨a, ha⟩
    subst ha
    interval_cases i
    rw [buildTree]
    simp [getLeaf]
  | succ m ih =>
    intro l i hl hi
    have h2 : 2 ≤ l.length := by
      rw [hl]
      calc 2 = 2 ^ 1 := by norm_num
        _ ≤ 2 ^ (m + 1) := Nat.pow_le_pow_right (by norm_num) (by omega)
    have hhalf : l.length / 2 = 2 ^ m := by
      rw [hl, pow_succ, Nat.mul_div_cancel _ (by norm_num)]
    have htake : (l.take (l.length / 2)).length = 2 ^ m := by
      simp only [List.length_take]
      omega
    have hdrop : (l.drop (l.length / 2)).length = 2 ^ m := by
      simp only [List.length_drop]
      rw [hhalf, hl, pow_succ]
      omega
    rw [buildTree, dif_pos h2]
    simp only [getLeaf]
    have htot : 2 ^ (m + 1) / 2 = 2 ^ m := by
      rw [pow_succ, Nat.mul_div_cancel _ (by norm_num)]
    rw [htot]
    by_cases hcase : i < 2 ^ m
    · rw [if_pos hcase, ih _ i htake hcase]
      simp only [List.get_eq_getElem, List.getElem_take]
    · rw [if_neg hcase]
      have hbound : i - 2 ^ m < 2 ^ m := by
        rw [pow_succ] at hi
        omega
      rw [ih _ (i - 2 ^ m) hdrop hbound]
      have hidx : l.length / 2 + (i - 2 ^ m) = i := by omega
      simp only [List.get_eq_getElem, List.getElem_drop, hidx]

/-- Rows of the extended square are the row-major chunks shifted by the drop
index. -/
theorem chunks_getD (k : Nat) (hk : 0 < k) :
    ∀ (l : List α) (i : Nat), (chunks k l).getD i [] = (l.drop (i * k)).take k := by
  intro l
  induction l using chunks.induct k with
  | case1 => intro i; simp [chunks]
  | case2 l h => omega
  | case3 x xs h ih =>
    intro i
    rw [chunks]
    simp only [dif_neg h]
    cases i with
    | zero => simp
    | succ n =>
      simp only [List.getD_cons_succ, ih n, List.drop_drop]
      congr 2
      ring

/-- **C2** (leaf access): for an EDS built from `k²` original shares, for
every row `i < k` and column `j < k`, `GetShare` on the row root of row `i`
at position `j` (with `2k` total leaves) returns the original share at flat
index `i·k + j`. -/
theorem getShare_rowRoot (k m : Nat) (hk : k = 2 ^ m)
    (enc : List Share → List Share) (henc : ∀ l, (enc l).length = l.length)
    (shares : List Share) (hlen : shares.length = k * k)
    (i j : Nat) (hi : i < k) (hj : j < k) :
    GetShare (buildTree ((Extend enc k shares).getD i [])) j (2 * k)
      = shares.getD (i * k + j) (0, 0) := by
  have hkpos : 0 < k := by rw [hk]; positivity
  have hchunklen : (chunks k shares).length = k := by
    rw [chunks_length_of_dvd k hkpos shares ⟨k, hlen⟩, hlen,
      Nat.mul_div_cancel_left _ hkpos]
  -- identify row i of the extended square
  have hrow : (Extend enc k shares).getD i []
      = extendRow enc ((shares.drop (i * k)).take k) := by
    unfold Extend extendCols
    rw [List.getD_append _ _ _ _ (by simp only [List.length_map]; omega)]
    rw [List.getD_eq_getElem _ _ (by simp only [List.length_map]; omega)]
    rw [List.getElem_map]
    rw [← List.getD_eq_getElem _ ([] : List Share) (by omega), chunks_getD k hkpos]
  rw [hrow]
  -- the original shares of row i
  set cr : List Share := (shares.drop (i * k)).take k with hcr
  have hik : i * k + k ≤ k * k := by
    have : (i + 1) * k ≤ k * k := Nat.mul_le_mul_right k (by omega)
    calc i * k + k = (i + 1) * k := by ring
      _ ≤ k * k := this
  have hcrlen : cr.length = k := by
    simp only [hcr, List.length_take, List.length_drop, hlen]
    omega
  have hrowlen : (extendRow enc cr).length = 2 ^ (m + 1) := by
    unfold extendRow
    simp only [List.length_append, henc, hcrlen]
    rw [hk, pow_succ]
    ring
  have h2k : 2 * k = 2 ^ (m + 1) := by
    rw [hk, pow_succ]
    ring
  have hj2 : j < 2 ^ (m + 1) := by
    have : k ≤ 2 ^ (m + 1) := by rw [← h2k]; omega
    omega
  unfold GetShare
  rw [h2k, getLeaf_buildTree (m + 1) (extendRow enc cr) j hrowlen hj2]
  -- the j-th leaf of the extended row is the j-th original share of the row
  have hjlt : j < cr.length := by omega
  simp only [List.get_eq_getElem]
  unfold extendRow
  rw [List.getElem_append_left (by omega)]
  have hidx : i * k + j < shares.length := by omega
  rw [List.getD_eq_getElem _ _ hidx]
  simp only [hcr]
  rw [List.getElem_take, List.getElem_drop]

/-- Witness for C2 at `k = 2`, `i = 1`, `j = 0` with four concrete shares and
the repetition codec. -/
theorem getShare_rowRoot_witness :
    GetShare
      (buildTree ((Extend (fun l => l) 2
        [((1 : Nat), (10 : Nat)), (2, 11), (3, 12), (4, 13)]).getD 1 []))
      0 (2 * 2) = ((3 : Nat), (12 : Nat)) := by
  have h := getShare_rowRoot 2 1 (by norm_num) (fun l => l) (fun l => rfl)
    [((1 : Nat), (10 : Nat)), (2, 11), (3, 12), (4, 13)] (by decide) 1 0
    (by decide) (by decide)
  simpa using h

theorem NTree.size_pos (t : NTree) : 1 ≤ t.size := by
  induction t with
  | leaf s => simp [NTree.size]
  | node l r ihl ihr => simp only [NTree.size]; omega

theorem leavesOf_length (t : NTree) : t.leavesOf.length = t.size := by
  induction t with
  | leaf s => rfl
  | node l r ihl ihr => simp [NTree.leavesOf, NTree.size, ihl, ihr]

theorem leavesNs_length (t : NTree) : (leavesNs t).length = t.size := by
  unfold leavesNs
  simp [leavesOf_length]

theorem mem_nodesOf_self (t : NTree) : t ∈ nodesOf t := by
  cases t with
  | leaf s => simp [nodesOf]
  | node l r => simp [nodesOf]

theorem nodesOf_size_le (t : NTree) :
    ∀ u ∈ nodesOf t, u.size ≤ t.size := by
  induction t with
  | leaf s =>
    intro u hu
    simp only [nodesOf, List.mem_singleton] at hu
    subst hu
    exact le_refl _
  | node l r ihl ihr =>
    intro u hu
    simp only [nodesOf, List.mem_cons, List.mem_append] at hu
    have hl1 := l.size_pos
    have hr1 := r.size_pos
    rcases hu with hu | hu | hu
    · subst hu; exact le_refl _
    · have := ihl u hu; simp only [NTree.size]; omega
    · have := ihr u hu; simp only [NTree.size]; omega

theorem nodesOf_segment (t : NTree) :
    ∀ u ∈ nodesOf t, ∃ pre post, t.leavesOf = pre ++ u.leavesOf ++ post := by
  induction t with
  | leaf s =>
    intro u hu
    simp only [nodesOf, List.mem_singleton] at hu
    subst hu
    exact ⟨[], [], by simp⟩
  | node l r ihl ihr =>
    intro u hu
    simp only [nodesOf, List.mem_cons, List.mem_append] at hu
    rcases hu with hu | hu | hu
    · subst hu
      exact ⟨[], [], by simp⟩
    · obtain ⟨pre, post, hp⟩ := ihl u hu
      exact ⟨pre, post ++ r.leavesOf, by
        simp only [NTree.leavesOf, hp]
        simp [List.append_assoc]⟩
    · obtain ⟨pre, post, hp⟩ := ihr u hu
      exact ⟨l.leavesOf ++ pre, post, by
        simp only [NTree.leavesOf, hp]
        simp [List.append_assoc]⟩

theorem nodesOf_leaves_subset (t u : NTree) (hu : u ∈ nodesOf t) :
    ∀ x ∈ u.leavesOf, x ∈ t.leavesOf := by
  obtain ⟨pre, post, hp⟩ := nodesOf_segment t u hu
  intro x hx
  rw [hp]
  simp only [List.mem_append]
  exact Or.inl (Or.inr hx)

theorem nodesOf_leaves_nodup (t u : NTree) (hu : u ∈ nodesOf t)
    (hnd : t.leavesOf.Nodup) : u.leavesOf.Nodup := by
  obtain ⟨pre, post, hp⟩ := nodesOf_segment t u hu
  rw [hp] at hnd
  exact ((List.nodup_append.mp ((List.nodup_append.mp hnd).1)).2).1

theorem leavesOf_ne_nil (t : NTree) : t.leavesOf ≠ [] := by
  intro h
  have h1 := leavesOf_length t
  have h2 := t.size_pos
  rw [h] at h1
  simp at h1
  omega

theorem nodesOf_length (t : NTree) : (nodesOf t).length + 1 = 2 * t.size := by
  induction t with
  | leaf s => rfl
  | node l r ihl ihr =>
    simp only [nodesOf, List.length_cons, List.length_append, NTree.size]
    omega

theorem leaf_mem_nodesOf (t : NTree) :
    ∀ x ∈ t.leavesOf, NTree.leaf x ∈ nodesOf t := by
  induction t with
  | leaf s =>
    intro x hx
    simp only [NTree.leavesOf, List.mem_singleton] at hx
    subst hx
    simp [nodesOf]
  | node l r ihl ihr =>
    intro x hx
    simp only [NTree.leavesOf, List.mem_append] at hx
    simp only [nodesOf, List.mem_cons, List.mem_append]
    rcases hx with hx | hx
    · exact Or.inr (Or.inl (ihl x hx))
    · exact Or.inr (Or.inr (ihr x hx))

theorem nodesOf_nodup (t : NTree) (hnd : t.leavesOf.Nodup) :
    (nodesOf t).Nodup := by
  induction t with
  | leaf s => simp [nodesOf]
  | node l r ihl ihr =>
    have hndl : l.leavesOf.Nodup := (List.nodup_append.mp hnd).1
    have hndr : r.leavesOf.Nodup := (List.nodup_append.mp hnd).2.1
    have hdisj : ∀ x ∈ l.leavesOf, x ∉ r.leavesOf := by
      intro x hx hx2
      exact (List.nodup_append.mp hnd).2.2 hx hx2
    simp only [nodesOf, List.nodup_cons, List.nodup_append]
    refine ⟨?_, ihl hndl, ihr hndr, ?_⟩
    · intro hmem
      simp only [List.mem_append] at hmem
      have hsz : (NTree.node l r).size ≤ l.size ∨ (NTree.node l r).size ≤ r.size := by
        rcases hmem with hmem | hmem
        · exact Or.inl (nodesOf_size_le l _ hmem)
        · exact Or.inr (nodesOf_size_le r _ hmem)
      have hl1 := l.size_pos
      have hr1 := r.size_pos
      simp only [NTree.size] at hsz
      omega
    · intro u hul hur
      obtain ⟨x, hx⟩ := List.exists_mem_of_ne_nil _ (leavesOf_ne_nil u)
      exact hdisj x (nodesOf_leaves_subset l u hul x hx)
        (nodesOf_leaves_subset r u hur x hx)

theorem minNs_le_leaves (t : NTree) : ∀ x ∈ leavesNs t, t.minNs ≤ x := by
  induction t with
  | leaf s =>
    intro x hx
    simp only [leavesNs, NTree.leavesOf, List.map_singleton,
      List.mem_singleton] at hx
    subst hx
    exact le_refl _
  | node l r ihl ihr =>
    intro x hx
    simp only [leavesNs, NTree.leavesOf, List.map_append, List.mem_append] at hx
    simp only [NTree.minNs]
    rcases hx with hx | hx
    · exact le_trans (min_le_left _ _) (ihl x hx)
    · exact le_trans (min_le_right _ _) (ihr x hx)

theorem leaves_le_maxNs (t : NTree) : ∀ x ∈ leavesNs t, x ≤ t.maxNs := by
  induction t with
  | leaf s =>
    intro x hx
    simp only [leavesNs, NTree.leavesOf, List.map_singleton,
      List.mem_singleton] at hx
    subst hx
    exact le_refl _
  | node l r ihl ihr =>
    intro x hx
    simp only [leavesNs, NTree.leavesOf, List.map_append, List.mem_append] at hx
    simp only [NTree.maxNs]
    rcases hx with hx | hx
    · exact le_trans (ihl x hx) (le_max_left _ _)
    · exact le_trans (ihr x hx) (le_max_right _ _)

theorem minNs_mem (t : NTree) : t.minNs ∈ leavesNs t := by
  induction t with
  | leaf s => simp [leavesNs, NTree.leavesOf, NTree.minNs]
  | node l r ihl ihr =>
    simp only [leavesNs, NTree.leavesOf, List.map_append, List.mem_append]
    simp only [NTree.minNs]
    rcases min_cases l.minNs r.minNs with ⟨h, _⟩ | ⟨h, _⟩
    · rw [h]; exact Or.inl ihl
    · rw [h]; exact Or.inr ihr

theorem maxNs_mem (t : NTree) : t.maxNs ∈ leavesNs t := by
  induction t with
  | leaf s => simp [leavesNs, NTree.leavesOf, NTree.maxNs]
  | node l r ihl ihr =>
    simp only [leavesNs, NTree.leavesOf, List.map_append, List.mem_append]
    simp only [NTree.maxNs]
    rcases max_cases l.maxNs r.maxNs with ⟨h, _⟩ | ⟨h, _⟩
    · rw [h]; exact Or.inl ihl
    · rw [h]; exact Or.inr ihr

theorem card_filter_fin_le (n m : Nat) (h : m < n) :
    ((Finset.univ : Finset (Fin n)).filter (fun i : Fin n => (i : Nat) ≤ m)).card
      = m + 1 := by
  rw [← Finset.card_range (m + 1)]
  apply Finset.card_bij (fun (i : Fin n) _ => (i : Nat))
  · intro a ha
    simp only [Finset.mem_filter, Finset.mem_univ, true_and] at ha
    simp only [Finset.mem_range]
    omega
  · intro a _ b _ hab
    exact Fin.val_injective hab
  · intro b hb
    simp only [Finset.mem_range] at hb
    refine ⟨⟨b, by omega⟩, ?_, rfl⟩
    simp only [Finset.mem_filter, Finset.mem_univ, true_and]
    omega

theorem card_filter_fin_eq (n c : Nat) (h : c < n) :
    ((Finset.univ : Finset (Fin n)).filter (fun i : Fin n => (i : Nat) = c)).card
      = 1 := by
  rw [Finset.card_eq_one]
  refine ⟨⟨c, h⟩, ?_⟩
  ext i
  simp only [Finset.mem_filter, Finset.mem_univ, true_and, Finset.mem_singleton]
  constructor
  · intro hi
    exact Fin.ext hi
  · intro hi
    subst hi
    rfl

theorem rowMissing_le {n : Nat} {σ : Type} [DecidableEq σ]
    (sq : Square n σ) (i : Fin n) : rowMissing sq i ≤ n := by
  unfold rowMissing
  calc (Finset.univ.filter (fun j => sq i j = none)).card
      ≤ (Finset.univ : Finset (Fin n)).card := Finset.card_filter_le _ _
    _ = n := by simp

theorem colMissing_eq_row_transpose {n : Nat} {σ : Type} [DecidableEq σ]
    (sq : Square n σ) (j : Fin n) :
    colMissing sq j = rowMissing (fun a b => sq b a) j := rfl

theorem sum_colMissing {n : Nat} {σ : Type} [DecidableEq σ]
    (sq : Square n σ) : ∑ j, colMissing sq j = missingCount sq := by
  unfold missingCount rowMissing colMissing
  simp only [Finset.card_filter]
  exact Finset.sum_comm

theorem missing_lower_bound {n : Nat} {σ : Type} [DecidableEq σ]
    (sq : Square n σ) (htot : missingCount sq = n * n - 1) (i : Fin n) :
    n - 1 ≤ rowMissing sq i := by
  have hsplit : ∑ j ∈ Finset.univ.erase i, rowMissing sq j + rowMissing sq i
      = missingCount sq := Finset.sum_erase_add _ _ (Finset.mem_univ i)
  have hrest : ∑ j ∈ Finset.univ.erase i, rowMissing sq j ≤ (n - 1) * n := by
    calc ∑ j ∈ Finset.univ.erase i, rowMissing sq j
        ≤ (Finset.univ.erase i).card • n :=
          Finset.sum_le_card_nsmul _ _ n (fun x _ => rowMissing_le sq x)
      _ = (n - 1) * n := by
          rw [Finset.card_erase_of_mem (Finset.mem_univ i)]
          simp [smul_eq_mul]
  have hn : 0 < n := i.pos
  have hsub : (n - 1) * n = n * n - n := by
    rw [Nat.sub_mul, Nat.one_mul]
  have hnn : n ≤ n * n := Nat.le_mul_of_pos_left n hn
  rw [htot] at hsplit
  omega

theorem complete_of_missing_zero {n : Nat} {σ : Type} [DecidableEq σ]
    (sq : Square n σ) (h : IsComplete sq) : missingCount sq = 0 := by
  unfold missingCount rowMissing
  apply Finset.sum_eq_zero
  intro i _
  rw [Finset.card_eq_zero, Finset.filter_eq_empty_iff]
  intro j _
  exact h i j

theorem blockPattern_none_iff {σ : Type} (k : Nat)
    (orig : Fin (2 * k) → Fin (2 * k) → σ) (i j : Fin (2 * k)) :
    blockPattern k orig i j = none
      ↔ ((i : Nat) ≤ k / 2 ∨ ((i : Nat) = k / 2 + 1 ∧ (j : Nat) = 0)) := by
  unfold blockPattern
  split
  · rename_i h
    simp [h]
  · rename_i h
    simp [h]

theorem rowMissing_blockPattern {σ : Type} [DecidableEq σ] (k : Nat)
    (orig : Fin (2 * k) → Fin (2 * k) → σ) (i : Fin (2 * k)) :
    rowMissing (blockPattern k orig) i
      = if (i : Nat) ≤ k / 2 then 2 * k
        else if (i : Nat) = k / 2 + 1 then 1 else 0 := by
  have hkpos : 0 < 2 * k := i.pos
  unfold rowMissing
  rw [Finset.filter_congr (fun j _ => blockPattern_none_iff k orig i j)]
  by_cases h1 : (i : Nat) ≤ k / 2
  · rw [if_pos h1]
    rw [Finset.filter_true_of_mem (fun j _ => Or.inl h1)]
    simp
  · rw [if_neg h1]
    by_cases h2 : (i : Nat) = k / 2 + 1
    · rw [if_pos h2]
      have heq : (Finset.univ.filter
            (fun j : Fin (2 * k) =>
              (i : Nat) ≤ k / 2 ∨ ((i : Nat) = k / 2 + 1 ∧ (j : Nat) = 0)))
          = Finset.univ.filter (fun j : Fin (2 * k) => (j : Nat) = 0) :=
        Finset.filter_congr (fun j _ => by
          constructor
          · intro hc
            rcases hc with hc | hc
            · omega
            · exact hc.2
          · intro hj
            exact Or.inr ⟨h2, hj⟩)
      rw [heq]
      exact card_filter_fin_eq _ _ (by omega)
    · rw [if_neg h2]
      rw [Finset.card_eq_zero, Finset.filter_eq_empty_iff]
      intro j _
      omega

theorem missingCount_blockPattern {σ : Type} [DecidableEq σ] (k : Nat)
    (hk2 : 2 ≤ k) (heven : k % 2 = 0)
    (orig : Fin (2 * k) → Fin (2 * k) → σ) :
    missingCount (blockPattern k orig) = (k + 1) ^ 2 := by
  unfold missingCount
  calc ∑ i, rowMissing (blockPattern k orig) i
      = ∑ i : Fin (2 * k),
          ((if (i : Nat) ≤ k / 2 then 2 * k else 0)
            + (if (i : Nat) = k / 2 + 1 then 1 else 0)) := by
        apply Finset.sum_congr rfl
        intro i _
        rw [rowMissing_blockPattern k orig i]
        split_ifs <;> omega
    _ = (k / 2 + 1) * (2 * k) + 1 := by
        rw [Finset.sum_add_distrib, ← Finset.sum_filter, ← Finset.sum_filter,
          Finset.sum_const, Finset.sum_const,
          card_filter_fin_le _ _ (by omega), card_filter_fin_eq _ _ (by omega)]
        simp [smul_eq_mul]
    _ = (k + 1) ^ 2 := by
        obtain ⟨m, rfl⟩ : ∃ m, k = 2 * m := ⟨k / 2, by omega⟩
        rw [show 2 * m / 2 = m by omega]
        ring

theorem solveRows_blockPattern {σ : Type} [DecidableEq σ] (k : Nat)
    (hk2 : 2 ≤ k) (orig : Fin (2 * k) → Fin (2 * k) → σ) :
    solveRows k orig (blockPattern k orig)
      = fun (i j : Fin (2 * k)) =>
          if (i : Nat) ≤ k / 2 then none else some (orig i j) := by
  funext i j
  unfold solveRows
  rw [rowMissing_blockPattern k orig i]
  by_cases h1 : (i : Nat) ≤ k / 2
  · simp only [if_pos h1]
    rw [if_neg (by omega)]
    exact (blockPattern_none_iff k orig i j).mpr (Or.inl h1)
  · simp only [if_neg h1]
    by_cases h2 : (i : Nat) = k / 2 + 1
    · simp only [if_pos h2]
      rw [if_pos ⟨by omega, by omega⟩]
    · simp only [if_neg h2]
      rw [if_neg (by omega)]
      unfold blockPattern
      rw [if_neg (by omega)]

theorem solveCols_half {σ : Type} [DecidableEq σ] (k : Nat) (hk2 : 2 ≤ k)
    (heven : k % 2 = 0) (orig : Fin (2 * k) → Fin (2 * k) → σ) :
    solveCols k orig
        (fun (i j : Fin (2 * k)) =>
          if (i : Nat) ≤ k / 2 then none else some (orig i j))
      = fun i j => some (orig i j) := by
  have hcol : ∀ j : Fin (2 * k),
      colMissing
        (fun (i j : Fin (2 * k)) =>
          if (i : Nat) ≤ k / 2 then (none : Option σ) else some (orig i j)) j
      = k / 2 + 1 := by
    intro j
    unfold colMissing
    show (Finset.univ.filter
        (fun i : Fin (2 * k) =>
          (if (i : Nat) ≤ k / 2 then (none : Option σ) else some (orig i j))
            = none)).card = k / 2 + 1
    have heq : (Finset.univ.filter
          (fun i : Fin (2 * k) =>
            (if (i : Nat) ≤ k / 2 then (none : Option σ) else some (orig i j))
              = none))
        = Finset.univ.filter (fun i : Fin (2 * k) => (i : Nat) ≤ k / 2) :=
      Finset.filter_congr (fun i _ => by
        by_cases h : (i : Nat) ≤ k / 2 <;> simp [h])
    rw [heq]
    exact card_filter_fin_le _ _ (by omega)
  funext i j
  unfold solveCols
  rw [hcol j, if_pos ⟨by omega, by omega⟩]

/-- **C3** (recovery bound): for an EDS of original width `k` there is a
deletion pattern of size `(k+1)²` after which `Repair` against the original
roots succeeds and the repaired square equals the original; and deleting
`(2k)² − 1` shares always makes `Repair` fail with `FailedToSolve`. -/
theorem repair_recovery_bound (k : Nat) (hk2 : 2 ≤ k) (heven : k % 2 = 0)
    {σ : Type} [DecidableEq σ] (orig : Fin (2 * k) → Fin (2 * k) → σ) :
    (∃ damaged : Square (2 * k) σ,
      (∀ i j, damaged i j = none ∨ damaged i j = some (orig i j)) ∧
      missingCount damaged = (k + 1) ^ 2 ∧
      Repair k orig damaged = .ok (fun i j => some (orig i j)))
    ∧ (∀ damaged : Square (2 * k) σ,
        missingCount damaged = 2 * k * (2 * k) - 1 →
        Repair k orig damaged = .error RepairErr.FailedToSolve) := by
  have hkpos : 0 < 2 * k := by omega
  constructor
  · -- recoverable pattern of size (k+1)²
    refine ⟨blockPattern k orig, ?_, missingCount_blockPattern k hk2 heven orig, ?_⟩
    · intro i j
      unfold blockPattern
      split
      · exact Or.inl rfl
      · exact Or.inr rfl
    · -- repair succeeds and restores the original
      have hpass : repairPass k orig (blockPattern k orig)
          = fun i j => some (orig i j) := by
        unfold repairPass
        rw [solveRows_blockPattern k hk2 orig, solveCols_half k hk2 heven orig]
      have hnc : ¬ IsComplete (blockPattern k orig) := by
        intro hc
        exact hc ⟨0, hkpos⟩ ⟨0, hkpos⟩
          ((blockPattern_none_iff k orig _ _).mpr (Or.inl (by simp)))
      have hne : ¬ repairPass k orig (blockPattern k orig)
          = blockPattern k orig := by
        rw [hpass]
        intro h
        have := congrFun (congrFun h ⟨0, hkpos⟩) ⟨0, hkpos⟩
        rw [(blockPattern_none_iff k orig _ _).mpr (Or.inl (by simp))] at this
        exact Option.some_ne_none _ this
      obtain ⟨F, hF⟩ : ∃ F, 2 * k * (2 * k) + 1 = F + 2 :=
        ⟨2 * k * (2 * k) - 1, by
          have : 2 * 2 ≤ 2 * k * (2 * k) :=
            Nat.mul_le_mul (by omega) (by omega)
          omega⟩
      have hc : IsComplete (fun (i j : Fin (2 * k)) => some (orig i j)) :=
        fun i j => by simp
      unfold Repair
      rw [hF, repairLoop, if_neg hnc, if_neg hne, hpass, repairLoop, if_pos hc]
  · -- deleting all but one share always fails
    intro damaged htot
    have hrowge : ∀ i, 2 * k - 1 ≤ rowMissing damaged i :=
      missing_lower_bound damaged htot
    have hcolge : ∀ j, 2 * k - 1 ≤ colMissing damaged j := by
      intro j
      have htotT : missingCount (fun a b => damaged b a) = 2 * k * (2 * k) - 1 := by
        unfold missingCount
        rw [show (fun i => rowMissing (fun a b => damaged b a) i)
            = fun j => colMissing damaged j from rfl]
        rw [sum_colMissing damaged, htot]
      exact missing_lower_bound (fun a b => damaged b a) htotT j
    have hrows : solveRows k orig damaged = damaged := by
      funext i j
      unfold solveRows
      rw [if_neg (by have := hrowge i; omega)]
    have hpass : repairPass k orig damaged = damaged := by
      unfold repairPass
      rw [hrows]
      funext i j
      unfold solveCols
      rw [if_neg (by have := hcolge j; omega)]
    have hnc : ¬ IsComplete damaged := by
      intro hc
      have h0 := complete_of_missing_zero damaged hc
      rw [htot] at h0
      have : 2 * 2 ≤ 2 * k * (2 * k) := Nat.mul_le_mul (by omega) (by omega)
      omega
    obtain ⟨F, hF⟩ : ∃ F, 2 * k * (2 * k) + 1 = F + 1 :=
      ⟨2 * k * (2 * k), rfl⟩
    unfold Repair
    rw [hF, repairLoop, if_neg hnc, if_pos hpass]

/-- Witness for C3 at `k = 2` over a constant square. -/
theorem repair_recovery_bound_witness :
    (∃ damaged : Square (2 * 2) Nat,
      (∀ i j, damaged i j = none ∨ damaged i j = some 0) ∧
      missingCount damaged = (2 + 1) ^ 2 ∧
      Repair 2 (fun _ _ => (0 : Nat)) damaged = .ok (fun _ _ => some 0))
    ∧ (∀ damaged : Square (2 * 2) Nat,
        missingCount damaged = 2 * 2 * (2 * 2) - 1 →
        Repair 2 (fun _ _ => (0 : Nat)) damaged
          = .error RepairErr.FailedToSolve) :=
  repair_recovery_bound 2 (by decide) (by decide) (fun _ _ => (0 : Nat))

/-- **C7** (status-to-error mapping): `statusToErr` returns nil for OK,
`ErrNotFound` for NOT_FOUND, `ErrNamespaceNotFound` for
NAMESPACE_NOT_FOUND, and `ErrInvalidResponse` for every other status value,
with INVALID (0) and INTERNAL (3) both folded into `ErrInvalidResponse`. -/
theorem statusToErr_mapping (code : Int) :
    (statusToErr 1).1 = none
    ∧ (statusToErr 2).1 = some CErr.errNotFound
    ∧ (statusToErr 4).1 = some CErr.errNamespaceNotFound
    ∧ (code ≠ 1 → code ≠ 2 → code ≠ 4 →
        (statusToErr code).1 = some CErr.errInvalidResponse)
    ∧ (statusToErr 0).1 = some CErr.errInvalidResponse
    ∧ (statusToErr 3).1 = some CErr.errInvalidResponse := by
  refine ⟨by decide, by decide, by decide, ?_, by decide, by decide⟩
  intro h1 h2 h4
  simp [statusToErr, h1, h2, h4]

/-- Witness for C7 at status code 7. -/
theorem statusToErr_mapping_witness :
    (statusToErr 7).1 = some CErr.errInvalidResponse :=
  (statusToErr_mapping 7).2.2.2.1 (by decide) (by decide) (by decide)

/-- **C8** (rate-limit handling): when the stream read fails with `io.EOF`
before a response is received, the client returns `ErrNotFound` and records
the request under `StatusRateLimited`. -/
theorem eof_maps_to_not_found (env : Env) (d : Option Nat) (now : Nat)
    (e : GoErr) (hopen : env.openErr = none) (hwrite : env.writeErr = none)
    (hread : env.readErr = some e) (heof : e.isEOF = true) :
    RequestND env d now
      = ((none, some CErr.errNotFound), [ObserveStatus.StatusRateLimited]) := by
  have hdq : doRequest env
      = ((none, some CErr.errNotFound), [ObserveStatus.StatusRateLimited]) := by
    unfold doRequest
    rw [hopen, hwrite, hread]
    simp [heof]
  unfold RequestND
  rw [hdq]
  simp [CErr.isDeadlineOrCanceled, CErr.isNetTimeout]

/-- Witness for C8: a concrete run where the server closes the stream. -/
theorem eof_maps_to_not_found_witness :
    RequestND ⟨none, none, some ⟨false, false, false, true, 5⟩, 1, []⟩
        (some 9) 3
      = ((none, some CErr.errNotFound), [ObserveStatus.StatusRateLimited]) :=
  eof_maps_to_not_found _ (some 9) 3 ⟨false, false, false, true, 5⟩
    rfl rfl rfl rfl

/-- **C9**, counterexample: with a context that carries no deadline (so no
deadline has passed), a net-timeout failure is still remapped: the client
returns `context.DeadlineExceeded` instead of the original read error,
because the code ignores the `ok` flag of `ctx.Deadline()` and compares the
zero time with `time.Now()`. -/
theorem requestND_remap_cex :
    (RequestND netTimeoutEnv none 1).1.2 = some CErr.ctxDeadlineExceeded
    ∧ some CErr.ctxDeadlineExceeded
        ≠ some (CErr.readFailed ⟨false, false, true, false, 7⟩) := by
  constructor
  · rfl
  · decide

/-- **C9**, amended (timeout remapping): when `RequestND` fails with a
net-timeout error that is not a context error, the error is remapped to
`context.DeadlineExceeded` (and counted as a timeout) exactly when the
context's deadline — taken as the zero time when the context has none —
lies before the current time; otherwise the original error is returned
unchanged. -/
theorem requestND_timeout_remap (env : Env) (d : Option Nat) (now : Nat)
    (err : CErr) (herr : (doRequest env).1.2 = some err)
    (hnotctx : err.isDeadlineOrCanceled = false)
    (hnet : err.isNetTimeout = true) :
    if d.getD 0 < now then
      RequestND env d now
        = ((none, some CErr.ctxDeadlineExceeded),
            (doRequest env).2 ++ [ObserveStatus.StatusTimeout])
    else
      RequestND env d now = ((none, some err), (doRequest env).2) := by
  rcases hdq : doRequest env with ⟨⟨sh, oe⟩, ms⟩
  rw [hdq] at herr
  simp only at herr
  subst herr
  unfold RequestND
  rw [hdq]
  simp only [hnotctx, hnet, Bool.false_eq_true, if_false, Bool.true_and]
  by_cases hlt : d.getD 0 < now
  · simp [hlt]
  · simp [hlt]

/-- Witness for the amended C9: a deadline of 5 with `now = 10` has passed,
so the concrete run is remapped. -/
theorem requestND_timeout_remap_witness :
    if (some 5 : Option Nat).getD 0 < 10 then
      RequestND netTimeoutEnv (some 5) 10
        = ((none, some CErr.ctxDeadlineExceeded),
            (doRequest netTimeoutEnv).2 ++ [ObserveStatus.StatusTimeout])
    else
      RequestND netTimeoutEnv (some 5) 10
        = ((none, some (CErr.readFailed ⟨false, false, true, false, 7⟩)),
            (doRequest netTimeoutEnv).2) :=
  requestND_timeout_remap netTimeoutEnv (some 5) 10
    (CErr.readFailed ⟨false, false, true, false, 7⟩) rfl rfl rfl

/-- **C10** (no partial data with errors): whenever `RequestND` returns a
non-nil error, the `NamespacedShares` value it returns is nil. -/
theorem requestND_error_implies_nil_shares (env : Env) (d : Option Nat)
    (now : Nat) (h : (RequestND env d now).1.2 ≠ none) :
    (RequestND env d now).1.1 = none := by
  rcases hdq : doRequest env with ⟨⟨sh, oe⟩, ms⟩
  cases oe with
  | none =>
    exfalso
    apply h
    unfold RequestND
    rw [hdq]
  | some err =>
    unfold RequestND
    rw [hdq]
    by_cases h1 : err.isDeadlineOrCanceled
    · simp [h1]
    · by_cases h2 : err.isNetTimeout && decide (d.getD 0 < now)
      · simp [h1, h2]
      · simp [h1, h2]

/-- Witness for C10: a run whose stream open fails. -/
theorem requestND_error_implies_nil_shares_witness :
    (RequestND ⟨some ⟨false, false, false, false, 3⟩, none, none, 1, []⟩
      none 0).1.1 = none :=
  requestND_error_implies_nil_shares _ none 0 (by decide)

theorem collectWithMissing_length (avail : NTree → Bool) (nid : Nat) :
    ∀ t : NTree, (collectWithMissing avail nid t).1.length = t.size := by
  intro t
  induction t with
  | leaf s =>
    unfold collectWithMissing
    split_ifs <;> simp [NTree.size]
  | node l r ihl ihr =>
    unfold collectWithMissing
    split_ifs <;> simp [NTree.size, ihl, ihr]

/-- With every node of the subtree available and all leaves matching, the
traversal collects every leaf in order without error. -/
theorem collectWithMissing_complete (avail : NTree → Bool) (nid : Nat) :
    ∀ t : NTree, (∀ u ∈ nodesOf t, avail u = true) →
      (∀ x ∈ leavesNs t, x = nid) →
      collectWithMissing avail nid t = (t.leavesOf.map some, false) := by
  intro t
  induction t with
  | leaf s =>
    intro hav hns
    have h1 : avail (.leaf s) = true := hav _ (mem_nodesOf_self _)
    have h2 : s.1 = nid := hns s.1 (by simp [leavesNs, NTree.leavesOf])
    unfold collectWithMissing
    rw [h1]
    simp [h2, NTree.leavesOf]
  | node l r ihl ihr =>
    intro hav hns
    have h1 : avail (.node l r) = true := hav _ (mem_nodesOf_self _)
    have hminmem := minNs_mem (NTree.node l r)
    have hmaxmem := maxNs_mem (NTree.node l r)
    have hmin : (NTree.node l r).minNs = nid := hns _ hminmem
    have hmax : (NTree.node l r).maxNs = nid := hns _ hmaxmem
    have hout : nsOutside nid (.node l r) = false := by
      unfold nsOutside
      rw [hmin, hmax]
      simp
    have havl : ∀ u ∈ nodesOf l, avail u = true := fun u hu =>
      hav u (by simp only [nodesOf, List.mem_cons, List.mem_append]; exact Or.inr (Or.inl hu))
    have havr : ∀ u ∈ nodesOf r, avail u = true := fun u hu =>
      hav u (by simp only [nodesOf, List.mem_cons, List.mem_append]; exact Or.inr (Or.inr hu))
    have hnsl : ∀ x ∈ leavesNs l, x = nid := fun x hx =>
      hns x (by simp only [leavesNs, NTree.leavesOf, List.map_append,
        List.mem_append]; exact Or.inl hx)
    have hnsr : ∀ x ∈ leavesNs r, x = nid := fun x hx =>
      hns x (by simp only [leavesNs, NTree.leavesOf, List.map_append,
        List.mem_append]; exact Or.inr hx)
    unfold collectWithMissing
    rw [h1, hout]
    simp only [Bool.true_eq_false, if_false, Bool.false_eq_true]
    rw [ihl havl hnsl, ihr havr hnsr]
    simp [NTree.leavesOf]

theorem subtreeAt_mem_nodesOf {t d : NTree} {p : Nat}
    (h : SubtreeAt t p d) : d ∈ nodesOf t := by
  induction h with
  | here t => exact mem_nodesOf_self t
  | left h ih =>
    simp only [nodesOf, List.mem_cons, List.mem_append]
    exact Or.inr (Or.inl ih)
  | right h ih =>
    simp only [nodesOf, List.mem_cons, List.mem_append]
    exact Or.inr (Or.inr ih)

theorem subtreeAt_bound {t d : NTree} {p : Nat}
    (h : SubtreeAt t p d) : p + d.size ≤ t.size := by
  induction h with
  | here t => omega
  | left h ih =>
    rename_i l r d p
    simp only [NTree.size]
    have := r.size_pos
    omega
  | right h ih =>
    simp only [NTree.size]
    omega

theorem collectWithMissing_unavail (avail : NTree → Bool) (nid : Nat)
    (t : NTree) (h : avail t = false) :
    collectWithMissing avail nid t = (List.replicate t.size none, true) := by
  cases t with
  | leaf s =>
    unfold collectWithMissing
    rw [h]
    simp [NTree.size]
  | node l r =>
    unfold collectWithMissing
    rw [h]
    simp

theorem collect_missing_buffer (nid : Nat) {t d : NTree} {p : Nat}
    (hat : SubtreeAt t p d) :
    (∀ x ∈ leavesNs t, x = nid) → t.leavesOf.Nodup →
    collectWithMissing (fun u => decide (u ≠ d)) nid t
      = ((t.leavesOf.take p).map some
          ++ List.replicate d.size none
          ++ (t.leavesOf.drop (p + d.size)).map some, true) := by
  induction hat with
  | here t =>
    intro hall hnd
    rw [collectWithMissing_unavail _ _ t (by simp)]
    rw [List.take_zero, List.drop_eq_nil_of_le (by rw [leavesOf_length]; omega)]
    simp
  | left h ih =>
    rename_i l r d p
    intro hall hnd
    have hllen : l.leavesOf.length = l.size := leavesOf_length l
    have hb : p + d.size ≤ l.size := subtreeAt_bound h
    have hndl : l.leavesOf.Nodup := (List.nodup_append.mp hnd).1
    have hndr : r.leavesOf.Nodup := (List.nodup_append.mp hnd).2.1
    have hdisj := (List.nodup_append.mp hnd).2.2
    have halll : ∀ x ∈ leavesNs l, x = nid := fun x hx =>
      hall x (by simp only [leavesNs, NTree.leavesOf, List.map_append,
        List.mem_append]; exact Or.inl hx)
    have hallr : ∀ x ∈ leavesNs r, x = nid := fun x hx =>
      hall x (by simp only [leavesNs, NTree.leavesOf, List.map_append,
        List.mem_append]; exact Or.inr hx)
    have hne : NTree.node l r ≠ d := by
      intro he
      have hb2 := hb
      rw [← he] at hb2
      simp only [NTree.size] at hb2
      have := r.size_pos
      omega
    have hdr : d ∉ nodesOf r := by
      intro hmem
      obtain ⟨x, hx⟩ := List.exists_mem_of_ne_nil _ (leavesOf_ne_nil d)
      have hxl : x ∈ l.leavesOf :=
        nodesOf_leaves_subset l d (subtreeAt_mem_nodesOf h) x hx
      have hxr : x ∈ r.leavesOf := nodesOf_leaves_subset r d hmem x hx
      exact hdisj hxl hxr
    have havr : ∀ u ∈ nodesOf r, decide (u ≠ d) = true := by
      intro u hu
      simp only [decide_eq_true_eq]
      intro he
      subst he
      exact hdr hu
    have hout : nsOutside nid (.node l r) = false := by
      unfold nsOutside
      rw [hall _ (minNs_mem (NTree.node l r)), hall _ (maxNs_mem (NTree.node l r))]
      simp
    unfold collectWithMissing
    rw [if_neg (by simp [hne]), hout]
    simp only [Bool.false_eq_true, if_false]
    rw [ih halll hndl, collectWithMissing_complete _ nid r havr hallr]
    simp only [NTree.leavesOf]
    rw [List.take_append_of_le_length (by omega),
      List.drop_append_of_le_length (by omega)]
    simp [List.append_assoc]
  | right h ih =>
    rename_i l r d q
    intro hall hnd
    have hllen : l.leavesOf.length = l.size := leavesOf_length l
    have hrlen : r.leavesOf.length = r.size := leavesOf_length r
    have hb : q + d.size ≤ r.size := subtreeAt_bound h
    have hndl : l.leavesOf.Nodup := (List.nodup_append.mp hnd).1
    have hndr : r.leavesOf.Nodup := (List.nodup_append.mp hnd).2.1
    have hdisj := (List.nodup_append.mp hnd).2.2
    have halll : ∀ x ∈ leavesNs l, x = nid := fun x hx =>
      hall x (by simp only [leavesNs, NTree.leavesOf, List.map_append,
        List.mem_append]; exact Or.inl hx)
    have hallr : ∀ x ∈ leavesNs r, x = nid := fun x hx =>
      hall x (by simp only [leavesNs, NTree.leavesOf, List.map_append,
        List.mem_append]; exact Or.inr hx)
    have hne : NTree.node l r ≠ d := by
      intro he
      have hb2 := hb
      rw [← he] at hb2
      simp only [NTree.size] at hb2
      have := l.size_pos
      omega
    have hdl : d ∉ nodesOf l := by
      intro hmem
      obtain ⟨x, hx⟩ := List.exists_mem_of_ne_nil _ (leavesOf_ne_nil d)
      have hxr : x ∈ r.leavesOf :=
        nodesOf_leaves_subset r d (subtreeAt_mem_nodesOf h) x hx
      have hxl : x ∈ l.leavesOf := nodesOf_leaves_subset l d hmem x hx
      exact hdisj hxl hxr
    have havl : ∀ u ∈ nodesOf l, decide (u ≠ d) = true := by
      intro u hu
      simp only [decide_eq_true_eq]
      intro he
      subst he
      exact hdl hu
    have hout : nsOutside nid (.node l r) = false := by
      unfold nsOutside
      rw [hall _ (minNs_mem (NTree.node l r)), hall _ (maxNs_mem (NTree.node l r))]
      simp
    unfold collectWithMissing
    rw [if_neg (by simp [hne]), hout]
    simp only [Bool.false_eq_true, if_false]
    rw [ih hallr hndr, collectWithMissing_complete _ nid l havl halll]
    simp only [NTree.leavesOf]
    have h1 : (l.leavesOf ++ r.leavesOf).take (l.size + q)
        = l.leavesOf ++ r.leavesOf.take q := by
      rw [List.take_append_eq_append_take, List.take_of_length_le (by omega),
        show l.size + q - l.leavesOf.length = q by omega]
    have h2 : (l.leavesOf ++ r.leavesOf).drop (l.size + q + d.size)
        = r.leavesOf.drop (q + d.size) := by
      rw [List.drop_append_eq_append_drop,
        List.drop_eq_nil_of_le (by omega),
        show l.size + q + d.size - l.leavesOf.length = q + d.size by omega]
      simp
    rw [h1, h2]
    simp [List.append_assoc]

/-- **C6** (partial-fetch semantics): if the single NMT node `d` of the row
tree is deleted from the block store before the traversal runs, the
traversal reports an error, and the collected leaf buffer keeps the row's
full length, with `nil` exactly at the positions covered by the unreachable
node — for a deleted leaf node, exactly at that leaf's position — while
every leaf to its left (and right) stays at its in-order position. -/
theorem collect_missing_node_hole (nid : Nat) {t d : NTree} {p : Nat}
    (hat : SubtreeAt t p d)
    (hall : ∀ x ∈ leavesNs t, x = nid)
    (hnd : t.leavesOf.Nodup) :
    collectWithMissing (fun u => decide (u ≠ d)) nid t
      = ((t.leavesOf.take p).map some
          ++ List.replicate d.size none
          ++ (t.leavesOf.drop (p + d.size)).map some, true)
    ∧ (collectWithMissing (fun u => decide (u ≠ d)) nid t).1.length
        = t.size :=
  ⟨collect_missing_buffer nid hat hall hnd, collectWithMissing_length _ _ t⟩

theorem rowTree_leaves (w : Nat) (hw : 0 < w)
    (square : Fin w → Fin w → Share) (i : Fin w) :
    (rowTree w square i).leavesOf
      = (List.finRange w).map (fun j => square i j) := by
  unfold rowTree
  apply leavesOf_buildTree
  simp only [List.length_map, List.length_finRange]
  omega

theorem colTree_leaves (w : Nat) (hw : 0 < w)
    (square : Fin w → Fin w → Share) (j : Fin w) :
    (colTree w square j).leavesOf
      = (List.finRange w).map (fun i => square i j) := by
  unfold colTree
  apply leavesOf_buildTree
  simp only [List.length_map, List.length_finRange]
  omega

/-- The distinct-key count of the store: `(2w)·(2w−1) − w²`, i.e.
`3w² − 2w` — the `2w(w−1)` inner nodes of the `2w` trees plus the `w²`
leaf nodes, which rows and columns share. -/
theorem edsStoreKeys_card (w : Nat) (hw : 0 < w)
    (square : Fin w → Fin w → Share)
    (hinj : ∀ i j i2 j2, square i j = square i2 j2 → i = i2 ∧ j = j2) :
    (edsStoreKeys w square).card = 3 * (w * w) - 2 * w := by
  have hrl := rowTree_leaves w hw square
  have hcl := colTree_leaves w hw square
  have hrsize : ∀ i, (rowTree w square i).size = w := by
    intro i
    rw [← leavesOf_length, hrl i]
    simp
  have hcsize : ∀ j, (colTree w square j).size = w := by
    intro j
    rw [← leavesOf_length, hcl j]
    simp
  have hrnodup : ∀ i, (rowTree w square i).leavesOf.Nodup := by
    intro i
    rw [hrl i]
    exact List.Nodup.map (fun a b hab => (hinj i a i b hab).2)
      (List.nodup_finRange w)
  have hcnodup : ∀ j, (colTree w square j).leavesOf.Nodup := by
    intro j
    rw [hcl j]
    exact List.Nodup.map (fun a b hab => (hinj a j b j hab).1)
      (List.nodup_finRange w)
  have hrmem : ∀ i x, x ∈ (rowTree w square i).leavesOf
      ↔ ∃ a, x = square i a := by
    intro i x
    rw [hrl i]
    simp only [List.mem_map, List.mem_finRange, true_and]
    constructor
    · rintro ⟨a, ha⟩; exact ⟨a, ha.symm⟩
    · rintro ⟨a, ha⟩; exact ⟨a, ha.symm⟩
  have hcmem : ∀ j x, x ∈ (colTree w square j).leavesOf
      ↔ ∃ b, x = square b j := by
    intro j x
    rw [hcl j]
    simp only [List.mem_map, List.mem_finRange, true_and]
    constructor
    · rintro ⟨b, hb⟩; exact ⟨b, hb.symm⟩
    · rintro ⟨b, hb⟩; exact ⟨b, hb.symm⟩
  set A : Finset NTree :=
    Finset.univ.biUnion (fun i => (nodesOf (rowTree w square i)).toFinset)
    with hA
  set B : Finset NTree :=
    Finset.univ.biUnion (fun j => (nodesOf (colTree w square j)).toFinset)
    with hB
  -- pairwise disjointness of the trees along one axis
  have hdisjrow : ∀ i ∈ (Finset.univ : Finset (Fin w)),
      ∀ i2 ∈ (Finset.univ : Finset (Fin w)), i ≠ i2 →
      Disjoint ((nodesOf (rowTree w square i)).toFinset)
        ((nodesOf (rowTree w square i2)).toFinset) := by
    intro i _ i2 _ hne
    rw [Finset.disjoint_left]
    intro u hu hu2
    rw [List.mem_toFinset] at hu hu2
    obtain ⟨x, hx⟩ := List.exists_mem_of_ne_nil _ (leavesOf_ne_nil u)
    have h1 := (hrmem i x).mp (nodesOf_leaves_subset _ u hu x hx)
    have h2 := (hrmem i2 x).mp (nodesOf_leaves_subset _ u hu2 x hx)
    obtain ⟨a, ha⟩ := h1
    obtain ⟨b, hb⟩ := h2
    exact hne ((hinj i a i2 b (ha ▸ hb ▸ rfl)).1)
  have hdisjcol : ∀ j ∈ (Finset.univ : Finset (Fin w)),
      ∀ j2 ∈ (Finset.univ : Finset (Fin w)), j ≠ j2 →
      Disjoint ((nodesOf (colTree w square j)).toFinset)
        ((nodesOf (colTree w square j2)).toFinset) := by
    intro j _ j2 _ hne
    rw [Finset.disjoint_left]
    intro u hu hu2
    rw [List.mem_toFinset] at hu hu2
    obtain ⟨x, hx⟩ := List.exists_mem_of_ne_nil _ (leavesOf_ne_nil u)
    have h1 := (hcmem j x).mp (nodesOf_leaves_subset _ u hu x hx)
    have h2 := (hcmem j2 x).mp (nodesOf_leaves_subset _ u hu2 x hx)
    obtain ⟨a, ha⟩ := h1
    obtain ⟨b, hb⟩ := h2
    exact hne ((hinj a j b j2 (ha ▸ hb ▸ rfl)).2)
  -- the card of each axis
  have hcardA : A.card + w = 2 * (w * w) := by
    rw [hA, Finset.card_biUnion hdisjrow]
    have hterm : ∀ i : Fin w,
        ((nodesOf (rowTree w square i)).toFinset).card + 1 = 2 * w := by
      intro i
      rw [List.toFinset_card_of_nodup (nodesOf_nodup _ (hrnodup i))]
      rw [nodesOf_length, hrsize i]
    calc (∑ i : Fin w, ((nodesOf (rowTree w square i)).toFinset).card) + w
        = ∑ i : Fin w, (((nodesOf (rowTree w square i)).toFinset).card + 1) := by
          rw [Finset.sum_add_distrib]
          simp
      _ = ∑ _i : Fin w, 2 * w := Finset.sum_congr rfl (fun i _ => hterm i)
      _ = 2 * (w * w) := by
          rw [Finset.sum_const]
          simp [smul_eq_mul]
          ring
  have hcardB : B.card + w = 2 * (w * w) := by
    rw [hB, Finset.card_biUnion hdisjcol]
    have hterm : ∀ j : Fin w,
        ((nodesOf (colTree w square j)).toFinset).card + 1 = 2 * w := by
      intro j
      rw [List.toFinset_card_of_nodup (nodesOf_nodup _ (hcnodup j))]
      rw [nodesOf_length, hcsize j]
    calc (∑ j : Fin w, ((nodesOf (colTree w square j)).toFinset).card) + w
        = ∑ j : Fin w, (((nodesOf (colTree w square j)).toFinset).card + 1) := by
          rw [Finset.sum_add_distrib]
          simp
      _ = ∑ _j : Fin w, 2 * w := Finset.sum_congr rfl (fun j _ => hterm j)
      _ = 2 * (w * w) := by
          rw [Finset.sum_const]
          simp [smul_eq_mul]
          ring
  -- the two axes share exactly the w² leaf nodes
  have hinter : A ∩ B
      = (Finset.univ ×ˢ Finset.univ).image
          (fun p : Fin w × Fin w => NTree.leaf (square p.1 p.2)) := by
    ext u
    simp only [Finset.mem_inter, Finset.mem_image, Finset.mem_product,
      Finset.mem_univ, and_self, true_and, hA, hB, Finset.mem_biUnion,
      List.mem_toFinset]
    constructor
    · rintro ⟨⟨i, hui⟩, ⟨j, huj⟩⟩
      cases u with
      | node a b =>
        exfalso
        have hnd := nodesOf_leaves_nodup _ _ hui (hrnodup i)
        have hlen : 2 ≤ (NTree.node a b).leavesOf.length := by
          rw [leavesOf_length]
          have := a.size_pos
          have := b.size_pos
          simp only [NTree.size]
          omega
        obtain ⟨y0, tl, htl⟩ : ∃ y0 tl, (NTree.node a b).leavesOf = y0 :: tl := by
          cases hlv : (NTree.node a b).leavesOf with
          | nil => rw [hlv] at hlen; simp at hlen
          | cons y0 tl => exact ⟨y0, tl, rfl⟩
        obtain ⟨y1, tl2, htl2⟩ : ∃ y1 tl2, tl = y1 :: tl2 := by
          cases htl3 : tl with
          | nil => rw [htl, htl3] at hlen; simp at hlen
          | cons y1 tl2 => exact ⟨y1, tl2, rfl⟩
        have hy0 : y0 ∈ (NTree.node a b).leavesOf := by rw [htl]; simp
        have hy1 : y1 ∈ (NTree.node a b).leavesOf := by rw [htl, htl2]; simp
        have hne01 : y0 ≠ y1 := by
          rw [htl, htl2] at hnd
          rcases List.nodup_cons.mp hnd with ⟨hnotin, _⟩
          intro he
          exact hnotin (by rw [he]; simp)
        obtain ⟨a0, ha0⟩ := (hrmem i y0).mp (nodesOf_leaves_subset _ _ hui y0 hy0)
        obtain ⟨a1, ha1⟩ := (hrmem i y1).mp (nodesOf_leaves_subset _ _ hui y1 hy1)
        obtain ⟨b0, hb0⟩ := (hcmem j y0).mp (nodesOf_leaves_subset _ _ huj y0 hy0)
        obtain ⟨b1, hb1⟩ := (hcmem j y1).mp (nodesOf_leaves_subset _ _ huj y1 hy1)
        have h0 : y0 = square i j := by
          obtain ⟨hi0, hj0⟩ := hinj i a0 b0 j (ha0 ▸ hb0 ▸ rfl)
          rw [ha0, hj0]
        have h1 : y1 = square i j := by
          obtain ⟨hi1, hj1⟩ := hinj i a1 b1 j (ha1 ▸ hb1 ▸ rfl)
          rw [ha1, hj1]
        exact hne01 (h0.trans h1.symm)
      | leaf s =>
        have hs : s ∈ (NTree.leaf s).leavesOf := by
          simp [NTree.leavesOf]
        obtain ⟨a0, ha0⟩ := (hrmem i s).mp (nodesOf_leaves_subset _ _ hui s hs)
        obtain ⟨b0, hb0⟩ := (hcmem j s).mp (nodesOf_leaves_subset _ _ huj s hs)
        obtain ⟨hi0, hj0⟩ := hinj i a0 b0 j (ha0 ▸ hb0 ▸ rfl)
        exact ⟨⟨i, j⟩, by rw [ha0, hj0]⟩
    · rintro ⟨⟨i, j⟩, hp⟩
      subst hp
      constructor
      · refine ⟨i, ?_⟩
        apply leaf_mem_nodesOf
        rw [hrmem i]
        exact ⟨j, rfl⟩
      · refine ⟨j, ?_⟩
        apply leaf_mem_nodesOf
        rw [hcmem j]
        exact ⟨i, rfl⟩
  have hintercard : (A ∩ B).card = w * w := by
    rw [hinter]
    rw [Finset.card_image_of_injOn]
    · rw [Finset.card_product]
      simp
    · intro p _ q _ hpq
      simp only [NTree.leaf.injEq] at hpq
      obtain ⟨h1, h2⟩ := hinj p.1 p.2 q.1 q.2 hpq
      exact Prod.ext h1 h2
  have hunion := Finset.card_union_add_card_inter A B
  have hstore : (edsStoreKeys w square).card = (A ∪ B).card := by
    rw [edsStoreKeys, hA, hB]
  rw [hstore]
  rw [hintercard] at hunion
  generalize hP : w * w = P at hcardA hcardB hunion
  omega

/-- **C5**, counterexample: for extended width `w = 8` the block store
holds `(2·8)·(2·8−1) − 8² = 176` keys, not `BatchSize(8) = 2·8² + 2·8 =
144`: the spec's closed form miscounts. -/
theorem batchSize_cex : (edsStoreKeys 8 sq8).card ≠ BatchSize 8 := by
  rw [edsStoreKeys_card 8 (by norm_num) sq8 (by decide)]
  decide

/-- **C5**, amended (batch count): after adding an EDS of extended width
`w ≥ 1` whose shares are pairwise distinct, the block store contains
exactly `3w² − 2w` keys — equivalently `(2w−1)·2w − w²`: every node of the
`2w` trees with the `w²` leaves, shared between the row and the column
trees, counted once — rather than `2w² + 2w`. -/
theorem edsStoreKeys_card_eq (w : Nat) (hw : 0 < w)
    (square : Fin w → Fin w → Share)
    (hinj : ∀ i j i2 j2, square i j = square i2 j2 → i = i2 ∧ j = j2) :
    (edsStoreKeys w square).card = 3 * (w * w) - 2 * w :=
  edsStoreKeys_card w hw square hinj

/-- Witness for the amended C5 at `w = 4` (40 keys). -/
theorem edsStoreKeys_card_eq_witness :
    (edsStoreKeys 4 sq4).card = 3 * (4 * 4) - 2 * 4 :=
  edsStoreKeys_card_eq 4 (by norm_num) sq4 (by decide)

/-- Witness for C6: deleting the second leaf of `exRow` yields an error and
a hole exactly at position 1. -/
theorem collect_missing_node_hole_witness :
    collectWithMissing (fun u => decide (u ≠ NTree.leaf (5, 2))) 5 exRow
      = ((exRow.leavesOf.take 1).map some
          ++ List.replicate (NTree.leaf (5, 2)).size none
          ++ (exRow.leavesOf.drop (1 + (NTree.leaf (5, 2)).size)).map some, true)
    ∧ (collectWithMissing (fun u => decide (u ≠ NTree.leaf (5, 2))) 5
        exRow).1.length = exRow.size :=
  collect_missing_node_hole 5
    (SubtreeAt.left (SubtreeAt.right (SubtreeAt.here (NTree.leaf (5, 2)))))
    (by decide) (by decide)

theorem leavesNs_node (l r : NTree) :
    leavesNs (.node l r) = leavesNs l ++ leavesNs r := by
  simp [leavesNs, NTree.leavesOf]

theorem maxNs_lt_iff (nid : Nat) (t : NTree) :
    t.maxNs < nid ↔ ∀ x ∈ leavesNs t, x < nid := by
  constructor
  · intro h x hx
    exact lt_of_le_of_lt (leaves_le_maxNs t x hx) h
  · intro h
    exact h _ (maxNs_mem t)

theorem lt_minNs_iff (nid : Nat) (t : NTree) :
    nid < t.minNs ↔ ∀ x ∈ leavesNs t, nid < x := by
  constructor
  · intro h x hx
    exact lt_of_lt_of_le h (minNs_le_leaves t x hx)
  · intro h
    exact h _ (minNs_mem t)

theorem collectAux_fst_nil (nid : Nat) :
    ∀ t : NTree, (∀ x ∈ leavesNs t, x ≠ nid) →
      (collectAux nid t).1 = [] := by
  intro t
  induction t with
  | leaf s =>
    intro h
    unfold collectAux
    rw [if_neg (h s.1 (by simp [leavesNs, NTree.leavesOf]))]
  | node l r ihl ihr =>
    intro h
    have hl : ∀ x ∈ leavesNs l, x ≠ nid := fun x hx =>
      h x (by rw [leavesNs_node]; exact List.mem_append_left _ hx)
    have hr : ∀ x ∈ leavesNs r, x ≠ nid := fun x hx =>
      h x (by rw [leavesNs_node]; exact List.mem_append_right _ hx)
    unfold collectAux
    split
    · rfl
    · simp [ihl hl, ihr hr]

theorem nsRangeStop_eq_start (nid : Nat) (t : NTree)
    (hne : ∀ x ∈ leavesNs t, x ≠ nid) :
    nsRangeStop nid t = nsRangeStart nid t := by
  unfold nsRangeStop nsRangeStart
  apply List.countP_congr
  intro x hx
  have hx2 := hne x hx
  simp only [decide_eq_true_eq]
  omega

theorem nsRangeStart_le_size (nid : Nat) (t : NTree) :
    nsRangeStart nid t ≤ t.size := by
  unfold nsRangeStart
  calc (leavesNs t).countP (fun x => decide (x < nid))
      ≤ (leavesNs t).length := List.countP_le_length _
    _ = t.size := leavesNs_length t

/-- Splitting the below-`nid` leaf count of a sorted, `nid`-free row
between the two children. -/
theorem countP_split (nid : Nat) (nsl nsr : List Nat)
    (hsort : (nsl ++ nsr).Pairwise (· ≤ ·)) (sl : Nat)
    (hc : nsl.countP (fun x => decide (x < nid))
        + nsr.countP (fun x => decide (x < nid))
        = min (nsl.length + nsr.length) sl) :
    nsl.countP (fun x => decide (x < nid)) = min nsl.length sl
    ∧ nsr.countP (fun x => decide (x < nid))
        = min nsr.length (sl - nsl.length) := by
  have ha : nsl.countP (fun x => decide (x < nid)) ≤ nsl.length :=
    List.countP_le_length _
  have hb : nsr.countP (fun x => decide (x < nid)) ≤ nsr.length :=
    List.countP_le_length _
  by_cases hb0 : 0 < nsr.countP (fun x => decide (x < nid))
  · obtain ⟨y, hy, hyp⟩ := List.countP_pos_iff.mp hb0
    simp only [decide_eq_true_eq] at hyp
    have hall : ∀ x ∈ nsl, x < nid := by
      intro x hx
      have hxy : x ≤ y := (List.pairwise_append.mp hsort).2.2 x hx y hy
      omega
    have ha2 : nsl.countP (fun x => decide (x < nid)) = nsl.length :=
      List.countP_eq_length.mpr (fun x hx => by
        simp only [decide_eq_true_eq]
        exact hall x hx)
    constructor <;> omega
  · have hb2 : nsr.countP (fun x => decide (x < nid)) = 0 := by omega
    constructor <;> omega

/-- A count strictly below the length exhibits an element violating the
predicate. -/
theorem exists_not_of_countP_lt (p : Nat → Bool) (l : List Nat)
    (h : l.countP p < l.length) : ∃ a ∈ l, ¬ p a = true := by
  by_contra hall
  push_neg at hall
  rw [List.countP_eq_length.mpr hall] at h
  omega

/-- The proof nodes produced by the descent for an absent namespace tile
the row exactly: consuming them re-creates the subtree and leaves the rest
of the streams untouched. -/
theorem collect_reconstruct (nid s : Nat) :
    ∀ (t : NTree) (lo : Nat) (ls : List Share) (ds : List NTree),
      NsSorted t → (∀ x ∈ leavesNs t, x ≠ nid) →
      (leavesNs t).countP (fun x => decide (x < nid)) = min t.size (s - lo) →
      reconstruct s s lo t ls ((collectAux nid t).2 ++ ds) = some (ls, ds) := by
  intro t
  induction t with
  | leaf sh =>
    intro lo ls ds hsort hne hcnt
    have hsh : sh.1 ≠ nid := hne sh.1 (by simp [leavesNs, NTree.leavesOf])
    unfold collectAux
    rw [if_neg hsh]
    by_cases hlt : sh.1 < nid
    · have h1 : (leavesNs (NTree.leaf sh)).countP (fun x => decide (x < nid))
          = 1 := by
        simp [leavesNs, NTree.leavesOf, hlt]
      rw [h1] at hcnt
      simp only [NTree.size] at hcnt
      unfold reconstruct
      rw [if_pos (Or.inr (by simp only [NTree.size]; omega))]
      simp [popNode]
    · have h1 : (leavesNs (NTree.leaf sh)).countP (fun x => decide (x < nid))
          = 0 := by
        simp [leavesNs, NTree.leavesOf, hlt]
      rw [h1] at hcnt
      simp only [NTree.size] at hcnt
      unfold reconstruct
      rw [if_pos (Or.inl (by omega))]
      simp [popNode]
  | node l r ihl ihr =>
    intro lo ls ds hsort hne hcnt
    have hnl : ∀ x ∈ leavesNs l, x ≠ nid := fun x hx =>
      hne x (by rw [leavesNs_node]; exact List.mem_append_left _ hx)
    have hnr : ∀ x ∈ leavesNs r, x ≠ nid := fun x hx =>
      hne x (by rw [leavesNs_node]; exact List.mem_append_right _ hx)
    have hsort2 : (leavesNs l ++ leavesNs r).Pairwise (· ≤ ·) := by
      rw [← leavesNs_node]
      exact hsort
    have hsl : NsSorted l := (List.pairwise_append.mp hsort2).1
    have hsr : NsSorted r := (List.pairwise_append.mp hsort2).2.1
    have hlen_l : (leavesNs l).length = l.size := leavesNs_length l
    have hlen_r : (leavesNs r).length = r.size := leavesNs_length r
    rw [leavesNs_node, List.countP_append] at hcnt
    simp only [NTree.size] at hcnt
    have hsplit := countP_split nid (leavesNs l) (leavesNs r) hsort2 (s - lo)
      (by rw [hlen_l, hlen_r]; exact hcnt)
    have hcl : (leavesNs l).countP (fun x => decide (x < nid))
        = min l.size (s - lo) := by
      rw [hsplit.1, hlen_l]
    have hcr : (leavesNs r).countP (fun x => decide (x < nid))
        = min r.size (s - (lo + l.size)) := by
      rw [hsplit.2, hlen_l]
      congr 1
      omega
    have hal : (leavesNs l).countP (fun x => decide (x < nid))
        ≤ (leavesNs l).length := List.countP_le_length _
    have har : (leavesNs r).countP (fun x => decide (x < nid))
        ≤ (leavesNs r).length := List.countP_le_length _
    by_cases hcase1 : s ≤ lo
    · -- every leaf of this subtree sorts above nid: the branch is pruned
      have hzero : (leavesNs l ++ leavesNs r).countP
          (fun x => decide (x < nid)) = 0 := by
        rw [List.countP_append]
        omega
      have hgt : ∀ x ∈ leavesNs (NTree.node l r), nid < x := by
        intro x hx
        rw [leavesNs_node] at hx
        have := List.countP_eq_zero.mp hzero x hx
        simp only [decide_eq_true_eq] at this
        have := hne x (by rw [leavesNs_node]; exact hx)
        omega
      have hout : nsOutside nid (.node l r) = true := by
        unfold nsOutside
        rw [decide_eq_true ((lt_minNs_iff nid _).mpr hgt)]
        simp
      unfold collectAux
      rw [if_pos hout]
      unfold reconstruct
      rw [if_pos (Or.inl hcase1)]
      simp [popNode]
    · by_cases hcase2 : lo + (l.size + r.size) ≤ s
      · -- every leaf sorts below nid: the branch is pruned
        have hfull : (leavesNs l ++ leavesNs r).countP
            (fun x => decide (x < nid))
            = (leavesNs l).length + (leavesNs r).length := by
          rw [List.countP_append]
          omega
        have hlt : ∀ x ∈ leavesNs (NTree.node l r), x < nid := by
          intro x hx
          rw [leavesNs_node] at hx
          have h2 := List.countP_eq_length.mp
            (by rw [List.countP_append] at hfull ⊢; rw [List.length_append]; exact hfull) x hx
          simpa using h2
        have hout : nsOutside nid (.node l r) = true := by
          unfold nsOutside
          rw [decide_eq_true ((maxNs_lt_iff nid _).mpr hlt)]
          simp
        unfold collectAux
        rw [if_pos hout]
        unfold reconstruct
        rw [if_pos (Or.inr (by simp only [NTree.size]; omega))]
        simp [popNode]
      · -- the subtree straddles the insertion point: recurse
        have hpos : 0 < (leavesNs l).countP (fun x => decide (x < nid))
            + (leavesNs r).countP (fun x => decide (x < nid)) := by
          omega
        have hsome_lt : ∃ x ∈ leavesNs l ++ leavesNs r, x < nid := by
          obtain ⟨x, hx, hp⟩ := List.countP_pos_iff.mp
            (by rw [List.countP_append]; omega :
              0 < (leavesNs l ++ leavesNs r).countP (fun x => decide (x < nid)))
          exact ⟨x, hx, by simpa using hp⟩
        have hsome_ge : ∃ x ∈ leavesNs l ++ leavesNs r, ¬ x < nid := by
          obtain ⟨x, hx, hp⟩ := exists_not_of_countP_lt _ _
            (by rw [List.countP_append, List.length_append]; omega :
              (leavesNs l ++ leavesNs r).countP (fun x => decide (x < nid))
                < (leavesNs l ++ leavesNs r).length)
          exact ⟨x, hx, by simpa using hp⟩
        have hout : nsOutside nid (.node l r) = false := by
          unfold nsOutside
          simp only [Bool.or_eq_false_iff, decide_eq_false_iff_not]
          constructor
          · intro hmin
            obtain ⟨x, hx, hxlt⟩ := hsome_lt
            have := (lt_minNs_iff nid _).mp hmin x
              (by rw [leavesNs_node]; exact hx)
            omega
          · intro hmax
            obtain ⟨x, hx, hxge⟩ := hsome_ge
            have := (maxNs_lt_iff nid _).mp hmax x
              (by rw [leavesNs_node]; exact hx)
            omega
        unfold collectAux
        rw [hout]
        simp only [Bool.false_eq_true, if_false]
        unfold reconstruct
        rw [if_neg (by simp only [NTree.size]; omega)]
        rw [List.append_assoc]
        rw [ihl lo ls ((collectAux nid r).2 ++ ds) hsl hnl hcl]
        exact ihr (lo + l.size) ls ds hsr hnr hcr

/-- The proof nodes produced by the descent bracket the insertion point of
the absent namespace. -/
theorem collect_bracket (nid s : Nat) :
    ∀ (t : NTree) (lo : Nat) (rest : List NTree),
      NsSorted t → (∀ x ∈ leavesNs t, x ≠ nid) →
      (leavesNs t).countP (fun x => decide (x < nid)) = min t.size (s - lo) →
      bracketOk nid s lo ((collectAux nid t).2 ++ rest)
        = bracketOk nid s (lo + t.size) rest := by
  intro t
  induction t with
  | leaf sh =>
    intro lo rest hsort hne hcnt
    have hsh : sh.1 ≠ nid := hne sh.1 (by simp [leavesNs, NTree.leavesOf])
    unfold collectAux
    rw [if_neg hsh]
    by_cases hlt : sh.1 < nid
    · have h1 : (leavesNs (NTree.leaf sh)).countP (fun x => decide (x < nid))
          = 1 := by
        simp [leavesNs, NTree.leavesOf, hlt]
      rw [h1] at hcnt
      simp only [NTree.size] at hcnt
      show bracketOk nid s lo (NTree.leaf sh :: rest)
        = bracketOk nid s (lo + (NTree.leaf sh).size) rest
      conv_lhs => rw [bracketOk]
      rw [if_pos (by simp only [NTree.size]; omega)]
      rw [decide_eq_true (show (NTree.leaf sh).maxNs < nid from hlt)]
      rw [Bool.true_and]
    · have h1 : (leavesNs (NTree.leaf sh)).countP (fun x => decide (x < nid))
          = 0 := by
        simp [leavesNs, NTree.leavesOf, hlt]
      rw [h1] at hcnt
      simp only [NTree.size] at hcnt
      show bracketOk nid s lo (NTree.leaf sh :: rest)
        = bracketOk nid s (lo + (NTree.leaf sh).size) rest
      conv_lhs => rw [bracketOk]
      rw [if_neg (by simp only [NTree.size]; omega)]
      rw [decide_eq_true (show nid < (NTree.leaf sh).minNs by
        show nid < sh.1
        have := hne sh.1 (by simp [leavesNs, NTree.leavesOf])
        omega)]
      rw [Bool.true_and]
  | node l r ihl ihr =>
    intro lo rest hsort hne hcnt
    have hnl : ∀ x ∈ leavesNs l, x ≠ nid := fun x hx =>
      hne x (by rw [leavesNs_node]; exact List.mem_append_left _ hx)
    have hnr : ∀ x ∈ leavesNs r, x ≠ nid := fun x hx =>
      hne x (by rw [leavesNs_node]; exact List.mem_append_right _ hx)
    have hsort2 : (leavesNs l ++ leavesNs r).Pairwise (· ≤ ·) := by
      rw [← leavesNs_node]
      exact hsort
    have hsl : NsSorted l := (List.pairwise_append.mp hsort2).1
    have hsr : NsSorted r := (List.pairwise_append.mp hsort2).2.1
    have hlen_l : (leavesNs l).length = l.size := leavesNs_length l
    have hlen_r : (leavesNs r).length = r.size := leavesNs_length r
    rw [leavesNs_node, List.countP_append] at hcnt
    simp only [NTree.size] at hcnt
    have hsplit := countP_split nid (leavesNs l) (leavesNs r) hsort2 (s - lo)
      (by rw [hlen_l, hlen_r]; exact hcnt)
    have hcl : (leavesNs l).countP (fun x => decide (x < nid))
        = min l.size (s - lo) := by
      rw [hsplit.1, hlen_l]
    have hcr : (leavesNs r).countP (fun x => decide (x < nid))
        = min r.size (s - (lo + l.size)) := by
      rw [hsplit.2, hlen_l]
      congr 1
      omega
    have hal : (leavesNs l).countP (fun x => decide (x < nid))
        ≤ (leavesNs l).length := List.countP_le_length _
    have har : (leavesNs r).countP (fun x => decide (x < nid))
        ≤ (leavesNs r).length := List.countP_le_length _
    by_cases hcase1 : s ≤ lo
    · have hzero : (leavesNs l ++ leavesNs r).countP
          (fun x => decide (x < nid)) = 0 := by
        rw [List.countP_append]
        omega
      have hgt : ∀ x ∈ leavesNs (NTree.node l r), nid < x := by
        intro x hx
        rw [leavesNs_node] at hx
        have := List.countP_eq_zero.mp hzero x hx
        simp only [decide_eq_true_eq] at this
        have := hne x (by rw [leavesNs_node]; exact hx)
        omega
      have hout : nsOutside nid (.node l r) = true := by
        unfold nsOutside
        rw [decide_eq_true ((lt_minNs_iff nid _).mpr hgt)]
        simp
      unfold collectAux
      rw [if_pos hout]
      show bracketOk nid s lo (NTree.node l r :: rest)
        = bracketOk nid s (lo + (NTree.node l r).size) rest
      conv_lhs => rw [bracketOk]
      have hsz := (NTree.node l r).size_pos
      rw [if_neg (by omega)]
      rw [decide_eq_true ((lt_minNs_iff nid _).mpr hgt)]
      rw [Bool.true_and]
    · by_cases hcase2 : lo + (l.size + r.size) ≤ s
      · have hfull : (leavesNs l ++ leavesNs r).countP
            (fun x => decide (x < nid))
            = (leavesNs l).length + (leavesNs r).length := by
          rw [List.countP_append]
          omega
        have hlt : ∀ x ∈ leavesNs (NTree.node l r), x < nid := by
          intro x hx
          rw [leavesNs_node] at hx
          have h2 := List.countP_eq_length.mp
            (by rw [List.countP_append] at hfull ⊢; rw [List.length_append]; exact hfull) x hx
          simpa using h2
        have hout : nsOutside nid (.node l r) = true := by
          unfold nsOutside
          rw [decide_eq_true ((maxNs_lt_iff nid _).mpr hlt)]
          simp
        unfold collectAux
        rw [if_pos hout]
        show bracketOk nid s lo (NTree.node l r :: rest)
          = bracketOk nid s (lo + (NTree.node l r).size) rest
        conv_lhs => rw [bracketOk]
        rw [if_pos (by simp only [NTree.size]; omega)]
        rw [decide_eq_true ((maxNs_lt_iff nid _).mpr hlt)]
        rw [Bool.true_and]
      · have hout : nsOutside nid (.node l r) = false := by
          unfold nsOutside
          simp only [Bool.or_eq_false_iff, decide_eq_false_iff_not]
          constructor
          · intro hmin
            obtain ⟨x, hx, hp⟩ := List.countP_pos_iff.mp
              (by rw [List.countP_append]; omega :
                0 < (leavesNs l ++ leavesNs r).countP
                  (fun x => decide (x < nid)))
            have := (lt_minNs_iff nid _).mp hmin x
              (by rw [leavesNs_node]; exact hx)
            simp only [decide_eq_true_eq] at hp
            omega
          · intro hmax
            obtain ⟨x, hx, hp⟩ := exists_not_of_countP_lt _ _
              (by rw [List.countP_append, List.length_append]; omega :
                (leavesNs l ++ leavesNs r).countP (fun x => decide (x < nid))
                  < (leavesNs l ++ leavesNs r).length)
            have := (maxNs_lt_iff nid _).mp hmax x
              (by rw [leavesNs_node]; exact hx)
            simp only [decide_eq_true_eq] at hp
            omega
        unfold collectAux
        rw [hout]
        simp only [Bool.false_eq_true, if_false]
        rw [List.append_assoc]
        rw [ihl lo ((collectAux nid r).2 ++ rest) hsl hnl hcl]
        rw [ihr (lo + l.size) rest hsr hnr hcr]
        simp only [NTree.size]
        congr 1
        omega

/-- **C4** (absence proofs): for a namespace id `nid` lying inside the
`[min, max]` range of exactly one row `t` but matching no leaf of that
row, `CollectLeavesByNamespace` on `t` succeeds with an empty leaf set and
a proof that `VerifyNamespace` accepts against the row root, while every
other row reports `NamespaceOutsideRange`. -/
theorem absence_proof_verifies (nid : Nat) (rows : List NTree) (t : NTree)
    (ht : t ∈ rows)
    (hsorted : ∀ r ∈ rows, NsSorted r)
    (hin : nsOutside nid t = false)
    (hnomatch : ∀ x ∈ leavesNs t, x ≠ nid)
    (hothers : ∀ r ∈ rows, r = t ∨ nsOutside nid r = true) :
    (∃ p : NsProof,
        CollectLeavesByNamespace nid t = .ok ([], p)
        ∧ VerifyNamespace nid [] p t = true)
    ∧ (∀ r ∈ rows, r ≠ t →
        CollectLeavesByNamespace nid r
          = .error CollectErr.NamespaceOutsideRange) := by
  constructor
  · refine ⟨⟨nsRangeStart nid t, nsRangeStop nid t, (collectAux nid t).2⟩,
      ?_, ?_⟩
    · unfold CollectLeavesByNamespace
      rw [hin]
      simp only [Bool.false_eq_true, if_false]
      rw [collectAux_fst_nil nid t hnomatch]
    · have hsort := hsorted t ht
      have hstop := nsRangeStop_eq_start nid t hnomatch
      have hle := nsRangeStart_le_size nid t
      have hcnt0 : (leavesNs t).countP (fun x => decide (x < nid))
          = min t.size (nsRangeStart nid t - 0) := by
        rw [Nat.sub_zero]
        have : nsRangeStart nid t
            = (leavesNs t).countP (fun x => decide (x < nid)) := rfl
        omega
      have hrec := collect_reconstruct nid (nsRangeStart nid t) t 0 [] []
        hsort hnomatch hcnt0
      have hbr := collect_bracket nid (nsRangeStart nid t) t 0 []
        hsort hnomatch hcnt0
      rw [List.append_nil] at hrec hbr
      unfold VerifyNamespace
      simp only [List.isEmpty_nil, if_true]
      rw [hstop, hrec]
      simp only [decide_eq_true_eq, decide_True, Bool.true_and, true_and]
      rw [hbr]
      rfl
  · intro r hr hne
    rcases hothers r hr with he | hout
    · exact absurd he hne
    · unfold CollectLeavesByNamespace
      rw [if_pos hout]

/-- Witness for C4 at the two concrete rows and `nid = 2`. -/
theorem absence_proof_verifies_witness :
    (∃ p : NsProof,
        CollectLeavesByNamespace 2 exRow1 = .ok ([], p)
        ∧ VerifyNamespace 2 [] p exRow1 = true)
    ∧ (∀ r ∈ [exRow1, exRow2], r ≠ exRow1 →
        CollectLeavesByNamespace 2 r
          = .error CollectErr.NamespaceOutsideRange) :=
  absence_proof_verifies 2 [exRow1, exRow2] exRow1 (by decide)
    (by decide) (by decide) (by decide) (by decide)

end Nhatcele
